import Mathlib

/-!
Verification development for the aos_core_cpp recipe layer.

The repository sources (`src/conan/conanfile.py`, `src/conan/softhsm2.py`) are
declarative Conan recipes.  The design document abstracts the engine that
consumes such recipes: a local recipe registry, a requirement-graph resolver
with diamond collapse and cycle detection, an option-propagation engine with
conflict checking, and a lifecycle executor.  The recipe data below is
translated directly from the two source files; the engine components are not
present under `src/` and are therefore modelled from the specification, as
indicated on each definition.
-/

set_option maxRecDepth 10000

/-- Identity of a recipe: (name, version, optional user, optional channel). -/
structure Identity where
  name : String
  version : String
  user : Option String := none
  channel : Option String := none
deriving DecidableEq

/-- Kind of a requirement edge: a runtime dependency or a tool (build) dependency. -/
inductive ReqKind where
  | runtime
  | tool
deriving DecidableEq

/-- Declared domain values for options: boolean or free string. -/
inductive OptionValue where
  | boolVal (b : Bool)
  | strVal (s : String)
deriving DecidableEq

/-- One requirement edge declared by a recipe: the dependency identity, the
edge kind, and optional explicit option overrides applied to the dependency
(pairs of option key and value). -/
structure Requirement where
  dep : Identity
  kind : ReqKind
  overrides : List (String × OptionValue) := []
deriving DecidableEq

/-- Ordered lifecycle stages a recipe may implement. -/
inductive Stage where
  | requirementsStage
  | buildRequirementsStage
  | configureStage
  | generateStage
  | sourceStage
  | buildStage
  | packageStage
  | packageInfoStage
deriving DecidableEq

/-- The fixed lifecycle stage sequence used by the executor. -/
def stageSequence : List Stage :=
  [.requirementsStage, .buildRequirementsStage, .configureStage, .generateStage,
   .sourceStage, .buildStage, .packageStage, .packageInfoStage]

/-- Immutable description of one buildable unit. `configOverrides` holds the
option overrides issued by the recipe's configure stage, each as
(target package name, option key, value). -/
structure RecipeDefinition where
  identity : Identity
  settingsAxes : List String := []
  optionDefaults : List (String × OptionValue) := []
  requirements : List Requirement := []
  configOverrides : List (String × String × OptionValue) := []
  capabilities : List Stage := []
  license : String := ""
  url : String := ""
  description : String := ""
deriving DecidableEq

/-- Source of an override: the invoking user or a consuming recipe. -/
inductive OverrideSource where
  | userSource
  | recipeSource (id : Identity)
deriving DecidableEq

/-- One entry of the process-scoped override table:
(source, target package name, option key, value). -/
structure OverrideEntry where
  src : OverrideSource
  target : String
  key : String
  value : OptionValue
deriving DecidableEq

/-- One edge of the resolved graph. -/
structure GraphEdge where
  consumer : Identity
  dep : Identity
  kind : ReqKind
deriving DecidableEq

/-- One node of the resolved graph: the identity plus its recipe definition. -/
structure GraphNode where
  ident : Identity
  defn : RecipeDefinition
deriving DecidableEq

/-- Errors of the resolution phase.  `outOfFuel` is an artifact of the bounded
recursion used by the model; it is proved unreachable for the fuel chosen by
`resolveGraph`. -/
inductive ResolveError where
  | cyclicRequirement (cycle : List Identity)
  | missingRecipe (id : Identity)
  | duplicateRecipe (id : Identity)
  | outOfFuel
deriving DecidableEq

/-- Modelled from the spec: the LocalRecipeRegistry (section 4.1), which is not
present under `src/`.  It holds recipes not yet published to any external
index. -/
structure LocalRecipeRegistry where
  entries : List RecipeDefinition := []
deriving DecidableEq

/-- Modelled from the spec: `register` makes a definition resolvable by
identity; registering two definitions under the same identity is a fatal
duplicate-recipe error. -/
def LocalRecipeRegistry.register (reg : LocalRecipeRegistry) (d : RecipeDefinition) :
    Except ResolveError LocalRecipeRegistry :=
  if reg.entries.any (fun e => decide (e.identity = d.identity)) then
    .error (.duplicateRecipe d.identity)
  else
    .ok ⟨reg.entries ++ [d]⟩

/-- Modelled from the spec: `lookup` first checks the local registry, falling
back to the external index collaborator (modelled as a finite list of
definitions). -/
def lookupRecipe (reg : LocalRecipeRegistry) (ext : List RecipeDefinition)
    (id : Identity) : Option RecipeDefinition :=
  match reg.entries.find? (fun r => decide (r.identity = id)) with
  | some r => some r
  | none => ext.find? (fun r => decide (r.identity = id))

/-- State of the in-progress resolution: discovery order of the depth-first
traversal, the active DFS visiting stack (most recent first), the output
topological order (a node is appended when its subtree is finished), the graph
nodes and edges, and the override table. -/
structure ResolveState where
  discovered : List Identity := []
  visiting : List Identity := []
  order : List Identity := []
  nodes : List GraphNode := []
  edges : List GraphEdge := []
  overTbl : List OverrideEntry := []
deriving DecidableEq

/-- The empty resolution state. -/
def emptyState : ResolveState := {}

/-- Record a requirement edge and merge its explicit overrides into the
override table (the consumer is the override source). -/
def addEdgeOverrides (v : Identity) (req : Requirement) (st : ResolveState) : ResolveState :=
  { st with
    edges := st.edges ++ [⟨v, req.dep, req.kind⟩],
    overTbl := st.overTbl ++
      req.overrides.map (fun p => ⟨.recipeSource v, req.dep.name, p.1, p.2⟩) }

/-- Enter the DFS frame of a node: record first discovery, push the identity on
the visiting stack, and merge the recipe's configure-stage overrides into the
override table. -/
def pushNode (v : Identity) (r : RecipeDefinition) (st : ResolveState) : ResolveState :=
  { st with
    discovered := st.discovered ++ [v],
    visiting := v :: st.visiting,
    overTbl := st.overTbl ++
      r.configOverrides.map (fun c => ⟨.recipeSource v, c.1, c.2.1, c.2.2⟩) }

/-- Leave the DFS frame of a node: pop the visiting stack and append the node
to the output order. -/
def finishNode (v : Identity) (r : RecipeDefinition) (st : ResolveState) : ResolveState :=
  { st with
    visiting := st.visiting.tail,
    order := st.order ++ [v],
    nodes := st.nodes ++ [⟨v, r⟩] }

/-- A pending step of the traversal: visit one node, or process a consumer's
remaining requirement list. -/
inductive RTask where
  | node (v : Identity)
  | reqsOf (v : Identity) (reqs : List Requirement)

/-- Modelled from the spec: the depth-first traversal of the
RequirementGraphResolver (section 4.2), which is not present under `src/`.
An identity already in the graph is reused (diamond collapse); an identity on
the active visiting stack is a fatal cyclic-requirement error naming the
identities on the cycle; otherwise the identity is resolved through the
registry-then-external-index lookup and its requirements are traversed
depth-first before the node is appended to the output order. -/
def runResolve (idx : Identity → Option RecipeDefinition) :
    Nat → RTask → ResolveState → Except ResolveError ResolveState
  | 0, _, _ => .error .outOfFuel
  | fuel + 1, .node v, st =>
    if v ∈ st.order then .ok st
    else if v ∈ st.visiting then
      .error (.cyclicRequirement (st.visiting.takeWhile (fun a => decide (a ≠ v)) ++ [v]))
    else
      match idx v with
      | none => .error (.missingRecipe v)
      | some r =>
        match runResolve idx fuel (.reqsOf v r.requirements) (pushNode v r st) with
        | .ok st2 => .ok (finishNode v r st2)
        | .error e => .error e
  | _ + 1, .reqsOf _ [], st => .ok st
  | fuel + 1, .reqsOf v (req :: rest), st =>
    match runResolve idx fuel (.node req.dep) (addEdgeOverrides v req st) with
    | .ok st2 => runResolve idx fuel (.reqsOf v rest) st2
    | .error e => .error e

/-- Largest requirement-list length among the available recipes. -/
def maxReqLen (reg : LocalRecipeRegistry) (ext : List RecipeDefinition) : Nat :=
  (reg.entries ++ ext).foldr (fun r m => max r.requirements.length m) 0

/-- Fuel sufficient for any traversal over the finite recipe domain. -/
def fuelFor (reg : LocalRecipeRegistry) (ext : List RecipeDefinition) : Nat :=
  (reg.entries.length + ext.length) * (maxReqLen reg ext + 2) + 1

/-- Visit each root in turn, threading the resolution state. -/
def resolveRoots (idx : Identity → Option RecipeDefinition) (fuel : Nat) :
    List Identity → ResolveState → Except ResolveError ResolveState
  | [], st => .ok st
  | root :: rest, st =>
    match runResolve idx fuel (.node root) st with
    | .ok st' => resolveRoots idx fuel rest st'
    | .error e => .error e

/-- Modelled from the spec: `RequirementGraphResolver.resolve` (section 4.2),
which is not present under `src/`.  The user's command-line overrides seed the
override table before traversal. -/
def resolveGraph (roots : List Identity) (reg : LocalRecipeRegistry)
    (ext : List RecipeDefinition)
    (userOpts : List (String × String × OptionValue)) :
    Except ResolveError ResolveState :=
  resolveRoots (lookupRecipe reg ext) (fuelFor reg ext) roots
    { emptyState with
      overTbl := userOpts.map (fun p => ⟨.userSource, p.1, p.2.1, p.2.2⟩) }

/-- Extract the graph of a successful resolution (empty state on error). -/
def getOk (x : Except ResolveError ResolveState) : ResolveState :=
  match x with
  | .ok g => g
  | .error _ => emptyState

/-! ## Recipe data translated from the repository sources -/

/-- Abbreviation for an identity without user/channel. -/
def mkId (n v : String) : Identity := ⟨n, v, none, none⟩

def gtestId : Identity := mkId "gtest" "1.14.0"

def libcurlId : Identity := mkId "libcurl" "8.8.0"

def pocoId : Identity := mkId "poco" "1.13.2"

def grpcId : Identity := mkId "grpc" "1.54.3"

def opensslId : Identity := mkId "openssl" "3.2.1"

def pkcs11Id : Identity := ⟨"pkcs11provider", "1.0", some "user", some "stable"⟩

def sqlite3Id : Identity := mkId "sqlite3" "3.45.0"

def protobufId : Identity := mkId "protobuf" "3.21.12"

def autoconfId : Identity := mkId "autoconf" "2.71"

def automakeId : Identity := mkId "automake" "1.16.5"

def libtoolId : Identity := mkId "libtool" "2.4.7"

def pkgconfId : Identity := mkId "pkgconf" "1.9.5"

def softhsmId : Identity := mkId "softhsm2" "2.6.1"

/-- The aggregate recipe of `src/conan/conanfile.py` declares no name/version
attributes (it is a consumer recipe); the model gives it a placeholder
identity. -/
def aosId : Identity := mkId "aoscommoncpp" "dev"

/-- Shorthand for a runtime requirement edge with no explicit overrides. -/
def rt (i : Identity) : Requirement := ⟨i, .runtime, []⟩

/-- Shorthand for a tool requirement edge with no explicit overrides. -/
def tl (i : Identity) : Requirement := ⟨i, .tool, []⟩

/-- Translated from `src/conan/conanfile.py` (class AosCommonCpp): runtime
requirements gtest, libcurl, poco, grpc, openssl, pkcs11provider; tool
requirements protobuf, grpc, gtest; configure sets openssl no_dso = False and
shared = True. -/
def AosCommonCpp : RecipeDefinition :=
  { identity := aosId
    settingsAxes := ["os", "compiler", "build_type", "arch"]
    requirements :=
      [rt gtestId, rt libcurlId, rt pocoId, rt grpcId, rt opensslId, rt pkcs11Id,
       tl protobufId, tl grpcId, tl gtestId]
    configOverrides :=
      [("openssl", "no_dso", .boolVal false), ("openssl", "shared", .boolVal true)]
    capabilities := [.requirementsStage, .buildRequirementsStage, .configureStage] }

/-- Translated from `src/conan/softhsm2.py` (class SoftHSMConan): runtime
requirements openssl, sqlite3; tool requirements autoconf, automake, libtool,
pkgconf; configure sets openssl no_dso = False and shared = True; implements
every lifecycle stage. -/
def SoftHSMConan : RecipeDefinition :=
  { identity := softhsmId
    settingsAxes := ["os", "compiler", "build_type", "arch"]
    requirements :=
      [rt opensslId, rt sqlite3Id, tl autoconfId, tl automakeId, tl libtoolId, tl pkgconfId]
    configOverrides :=
      [("openssl", "no_dso", .boolVal false), ("openssl", "shared", .boolVal true)]
    capabilities :=
      [.requirementsStage, .buildRequirementsStage, .configureStage, .generateStage,
       .sourceStage, .buildStage, .packageStage, .packageInfoStage]
    license := "BSD-2-Clause & ISC"
    url := "https://www.opendnssec.org/softhsm/"
    description := "PKCS#11 HSM/Token Emulator" }

/-- A leaf recipe of the external index with declared option defaults. -/
def leafRecipe (i : Identity) (opts : List (String × OptionValue)) : RecipeDefinition :=
  { identity := i, optionDefaults := opts }

/-- Openssl's declared option defaults before any override. -/
def opensslRecipe : RecipeDefinition :=
  leafRecipe opensslId [("shared", .boolVal false), ("no_dso", .boolVal true)]

/-- Recipe exported locally by the aggregate recipe's embedded export step. -/
def pkcs11Recipe : RecipeDefinition := leafRecipe pkcs11Id []

/-- The external index holding the repository's root recipes and the leaf
recipes they require. -/
def externalIndex : List RecipeDefinition :=
  [AosCommonCpp, SoftHSMConan, opensslRecipe,
   leafRecipe gtestId [], leafRecipe libcurlId [], leafRecipe pocoId [],
   leafRecipe grpcId [], leafRecipe sqlite3Id [], leafRecipe protobufId [],
   leafRecipe autoconfId [], leafRecipe automakeId [], leafRecipe libtoolId [],
   leafRecipe pkgconfId []]

/-- The local registry after the export-local step for pkcs11provider. -/
def localReg : LocalRecipeRegistry := ⟨[pkcs11Recipe]⟩

/-- Graph resolved from the aggregate recipe alone. -/
def aosGraph : ResolveState := getOk (resolveGraph [aosId] localReg externalIndex [])

/-- Graph resolved from both root recipes. -/
def bothGraph : ResolveState :=
  getOk (resolveGraph [aosId, softhsmId] localReg externalIndex [])

theorem aos_resolution_isOk : (resolveGraph [aosId] localReg externalIndex []).isOk = true := by decide

theorem aosGraph_order_length : aosGraph.order.length = 8 := by decide

theorem bothGraph_order_length : bothGraph.order.length = 14 := by decide

theorem aosGraph_order_eq : aosGraph.order =
    [gtestId, libcurlId, pocoId, grpcId, opensslId, pkcs11Id, protobufId, aosId] := by
  decide

/-! ## List precedence helpers

`[x, y] <+ l` states that `x` occurs strictly before `y` in `l`. -/

theorem pairSub_mem_left {α : Type} {x y : α} {l : List α} (h : [x, y].Sublist l) : x ∈ l :=
  h.subset (by simp)

theorem pairSub_mem_right {α : Type} {x y : α} {l : List α} (h : [x, y].Sublist l) : y ∈ l :=
  h.subset (by simp)

theorem pairSub_extend {α : Type} {x y : α} {l l' : List α} (h : [x, y].Sublist l) :
    [x, y].Sublist (l ++ l') :=
  h.trans (List.sublist_append_left l l')

theorem pairSub_of_mem_mem {α : Type} {x y : α} {l l' : List α} (hx : x ∈ l) (hy : y ∈ l') :
    [x, y].Sublist (l ++ l') := by
  have h1 : [x].Sublist l := List.singleton_sublist.mpr hx
  have h2 : [y].Sublist l' := List.singleton_sublist.mpr hy
  exact h1.append h2

theorem pairSub_append_cases {α : Type} {x y : α} {l l' : List α}
    (h : [x, y].Sublist (l ++ l')) :
    [x, y].Sublist l ∨ [x, y].Sublist l' ∨ (x ∈ l ∧ y ∈ l') := by
  induction l with
  | nil => simp at h; right; left; exact h
  | cons a t ih =>
    cases h with
    | cons _ h' =>
      rcases ih h' with h1 | h2 | h3
      · exact Or.inl (h1.cons a)
      · exact Or.inr (Or.inl h2)
      · exact Or.inr (Or.inr ⟨List.mem_cons_of_mem a h3.1, h3.2⟩)
    | cons₂ _ h' =>
      have hy := List.singleton_sublist.mp h'
      rcases List.mem_append.mp hy with hy1 | hy2
      · left
        exact (List.singleton_sublist.mpr hy1).cons₂ x
      · exact Or.inr (Or.inr ⟨List.mem_cons_self x t, hy2⟩)

theorem pairSub_restrict {α : Type} {x y : α} {l l' : List α}
    (hnd : (l ++ l').Nodup) (h : [x, y].Sublist (l ++ l')) (hy : y ∈ l) :
    [x, y].Sublist l := by
  rcases List.nodup_append.mp hnd with ⟨-, -, hdisj⟩
  rcases pairSub_append_cases h with h1 | h2 | h3
  · exact h1
  · exact absurd (pairSub_mem_right h2) (fun hc => hdisj hy hc)
  · exact absurd h3.2 (fun hc => hdisj hy hc)

theorem pairSub_total {α : Type} {x y : α} {l : List α}
    (hx : x ∈ l) (hy : y ∈ l) (hne : x ≠ y) :
    [x, y].Sublist l ∨ [y, x].Sublist l := by
  induction l with
  | nil => cases hx
  | cons a t ih =>
    rcases List.mem_cons.mp hx with rfl | hx'
    · have hy' : y ∈ t := by
        rcases List.mem_cons.mp hy with rfl | h
        · exact absurd rfl hne
        · exact h
      exact Or.inl ((List.singleton_sublist.mpr hy').cons₂ x)
    · rcases List.mem_cons.mp hy with rfl | hy'
      · exact Or.inr ((List.singleton_sublist.mpr hx').cons₂ y)
      · rcases ih hx' hy' with h1 | h2
        · exact Or.inl (h1.cons a)
        · exact Or.inr (h2.cons a)

theorem pairSub_asymm {α : Type} {x y : α} {l : List α}
    (hnd : l.Nodup) (h1 : [x, y].Sublist l) (h2 : [y, x].Sublist l) : False := by
  induction l with
  | nil => cases h1
  | cons a t ih =>
    have hnd' : t.Nodup := hnd.of_cons
    have hna : a ∉ t := (List.nodup_cons.mp hnd).1
    cases h1 with
    | cons _ h1' =>
      cases h2 with
      | cons _ h2' => exact ih hnd' h1' h2'
      | cons₂ _ h2' =>
        exact hna (pairSub_mem_right h1')
    | cons₂ _ h1' =>
      cases h2 with
      | cons _ h2' => exact hna (pairSub_mem_right h2')
      | cons₂ _ h2' => exact hna (List.singleton_sublist.mp h1')

theorem pairSub_trans {α : Type} {x y z : α} {l : List α}
    (hnd : l.Nodup) (h1 : [x, y].Sublist l) (h2 : [y, z].Sublist l) :
    [x, z].Sublist l := by
  induction l with
  | nil => cases h1
  | cons a t ih =>
    have hnd' : t.Nodup := hnd.of_cons
    have hna : a ∉ t := (List.nodup_cons.mp hnd).1
    cases h1 with
    | cons _ h1' =>
      cases h2 with
      | cons _ h2' => exact (ih hnd' h1' h2').cons a
      | cons₂ _ h2' => exact absurd (pairSub_mem_right h1') hna
    | cons₂ _ h1' =>
      cases h2 with
      | cons _ h2' => exact (List.singleton_sublist.mpr (pairSub_mem_right h2')).cons₂ x
      | cons₂ _ h2' => exact absurd (List.singleton_sublist.mp h1') hna

/-! ## Requirement reachability -/

/-- Direct requirement relation induced by a recipe index: `u` declares a
requirement edge whose dependency is `w`. -/
def Requires (idx : Identity → Option RecipeDefinition) (u w : Identity) : Prop :=
  ∃ r req, idx u = some r ∧ req ∈ r.requirements ∧ req.dep = w

/-- Reflexive-transitive closure of the requirement relation. -/
inductive Reaches (idx : Identity → Option RecipeDefinition) : Identity → Identity → Prop where
  | refl (v : Identity) : Reaches idx v v
  | step {u w x : Identity} : Requires idx u w → Reaches idx w x → Reaches idx u x

theorem Reaches.trans {idx : Identity → Option RecipeDefinition} {a b c : Identity}
    (h1 : Reaches idx a b) (h2 : Reaches idx b c) : Reaches idx a c := by
  induction h1 with
  | refl => exact h2
  | step hreq _ ih => exact .step hreq (ih h2)

theorem Reaches.single {idx : Identity → Option RecipeDefinition} {a b : Identity}
    (h : Requires idx a b) : Reaches idx a b :=
  .step h (.refl b)

/-! ## Basic frame facts about the traversal -/

/-- State extension across one traversal call: the visiting stack is restored
and every other component only grows by appending. -/
def StExt (st st' : ResolveState) : Prop :=
  st'.visiting = st.visiting ∧
  (∃ l, st'.discovered = st.discovered ++ l) ∧
  (∃ l, st'.order = st.order ++ l) ∧
  (∃ l, st'.nodes = st.nodes ++ l) ∧
  (∃ l, st'.edges = st.edges ++ l) ∧
  (∃ l, st'.overTbl = st.overTbl ++ l)

theorem stExt_refl (st : ResolveState) : StExt st st :=
  ⟨rfl, ⟨[], by simp⟩, ⟨[], by simp⟩, ⟨[], by simp⟩, ⟨[], by simp⟩, ⟨[], by simp⟩⟩

theorem stExt_trans {a b c : ResolveState} (h1 : StExt a b) (h2 : StExt b c) : StExt a c := by
  obtain ⟨v1, ⟨d1, hd1⟩, ⟨o1, ho1⟩, ⟨n1, hn1⟩, ⟨e1, he1⟩, ⟨t1, ht1⟩⟩ := h1
  obtain ⟨v2, ⟨d2, hd2⟩, ⟨o2, ho2⟩, ⟨n2, hn2⟩, ⟨e2, he2⟩, ⟨t2, ht2⟩⟩ := h2
  refine ⟨v2.trans v1, ⟨d1 ++ d2, ?_⟩, ⟨o1 ++ o2, ?_⟩, ⟨n1 ++ n2, ?_⟩,
    ⟨e1 ++ e2, ?_⟩, ⟨t1 ++ t2, ?_⟩⟩ <;> simp [hd2, hd1, ho2, ho1, hn2, hn1, he2, he1, ht2, ht1]

theorem stExt_addEdge (v : Identity) (req : Requirement) (st : ResolveState) :
    StExt st (addEdgeOverrides v req st) :=
  ⟨rfl, ⟨[], by simp [addEdgeOverrides]⟩, ⟨[], by simp [addEdgeOverrides]⟩,
   ⟨[], by simp [addEdgeOverrides]⟩, ⟨_, rfl⟩, ⟨_, rfl⟩⟩

/-- A successful traversal call extends the state and restores the visiting
stack. -/
theorem runResolve_extends (idx : Identity → Option RecipeDefinition) :
    ∀ fuel task st st', runResolve idx fuel task st = .ok st' → StExt st st' := by
  intro fuel
  induction fuel with
  | zero => intro task st st' h; simp [runResolve] at h
  | succ n ih =>
    intro task st st' h
    cases task with
    | node v =>
      simp only [runResolve] at h
      split at h
      · injection h with h'
        subst h'
        exact stExt_refl st
      · split at h
        · simp at h
        · split at h
          · simp at h
          · rename_i r hr
            split at h
            · rename_i st2 hst2
              injection h with h'
              subst h'
              have hext := ih (.reqsOf v r.requirements) (pushNode v r st) st2 hst2
              obtain ⟨hv, ⟨d1, hd1⟩, ⟨o1, ho1⟩, ⟨n1, hn1⟩, ⟨e1, he1⟩, ⟨t1, ht1⟩⟩ := hext
              refine ⟨?_, ⟨[v] ++ d1, ?_⟩, ⟨o1 ++ [v], ?_⟩, ⟨n1 ++ [⟨v, r⟩], ?_⟩,
                ⟨e1, ?_⟩,
                ⟨r.configOverrides.map (fun c => ⟨.recipeSource v, c.1, c.2.1, c.2.2⟩) ++ t1, ?_⟩⟩
              · simp [finishNode, hv, pushNode]
              · simp [finishNode, hd1, pushNode]
              · simp [finishNode, ho1, pushNode]
              · simp [finishNode, hn1, pushNode]
              · simp [finishNode, he1, pushNode]
              · simp [finishNode, ht1, pushNode]
            · simp at h
    | reqsOf v reqs =>
      cases reqs with
      | nil =>
        simp only [runResolve] at h
        injection h with h'
        subst h'
        exact stExt_refl st
      | cons req rest =>
        simp only [runResolve] at h
        split at h
        · rename_i st2 hst2
          have h1 := stExt_addEdge v req st
          have h2 := ih (.node req.dep) (addEdgeOverrides v req st) st2 hst2
          have h3 := ih (.reqsOf v rest) st2 st' h
          exact stExt_trans (stExt_trans h1 h2) h3
        · simp at h

/-- Chain property of the visiting stack: each entry was pushed while
processing the next older entry, i.e. the older entry requires the newer. -/
def VisChain (idx : Identity → Option RecipeDefinition) : List Identity → Prop
  | [] => True
  | [_] => True
  | a :: b :: rest => Requires idx b a ∧ VisChain idx (b :: rest)

theorem visChain_tail {idx : Identity → Option RecipeDefinition} {a : Identity}
    {l : List Identity} (h : VisChain idx (a :: l)) : VisChain idx l := by
  cases l with
  | nil => trivial
  | cons b t => exact h.2

/-- Invariant of the resolution state maintained by the depth-first
traversal. -/
structure RInv (idx : Identity → Option RecipeDefinition) (st : ResolveState) : Prop where
  nodupD : st.discovered.Nodup
  nodupO : st.order.Nodup
  nodupV : st.visiting.Nodup
  coverOV : ∀ x, x ∈ st.discovered ↔ (x ∈ st.order ∨ x ∈ st.visiting)
  disjOV : ∀ x, x ∈ st.order → x ∉ st.visiting
  nodesOrder : st.nodes.map GraphNode.ident = st.order
  nodesDefn : ∀ n ∈ st.nodes, idx n.ident = some n.defn
  tieInv : ∀ x y, [x, y].Sublist st.discovered → x ∈ st.order → y ∈ st.order →
      ¬ Reaches idx x y → [x, y].Sublist st.order
  edgeTopo : ∀ e ∈ st.edges, e.consumer ∈ st.order → [e.dep, e.consumer].Sublist st.order
  edgeCons : ∀ e ∈ st.edges, e.consumer ∈ st.order ∨ e.consumer ∈ st.visiting
  edgeFromReq : ∀ e ∈ st.edges, ∃ r req, idx e.consumer = some r ∧ req ∈ r.requirements ∧
      req.dep = e.dep ∧ req.kind = e.kind
  closedReq : ∀ u ∈ st.order, ∀ r, idx u = some r → ∀ req ∈ r.requirements,
      req.dep ∈ st.order ∧ GraphEdge.mk u req.dep req.kind ∈ st.edges ∧
      ∀ p ∈ req.overrides,
        OverrideEntry.mk (.recipeSource u) req.dep.name p.1 p.2 ∈ st.overTbl
  chainV : VisChain idx st.visiting

theorem rinv_push {idx : Identity → Option RecipeDefinition} {st : ResolveState}
    {v : Identity} {r : RecipeDefinition}
    (hinv : RInv idx st) (hvo : v ∉ st.order) (hvv : v ∉ st.visiting)
    (hpre : ∀ h, st.visiting.head? = some h → Requires idx h v) :
    RInv idx (pushNode v r st) := by
  have hvD : v ∉ st.discovered := fun hc => by
    rcases (hinv.coverOV v).mp hc with h | h
    · exact hvo h
    · exact hvv h
  have hnd : (st.discovered ++ [v]).Nodup := by
    rw [List.nodup_append]
    refine ⟨hinv.nodupD, List.nodup_singleton v, ?_⟩
    intro a ha hav
    rw [List.mem_singleton] at hav
    exact hvD (hav ▸ ha)
  refine ⟨?_, ?_, ?_, ?_, ?_, ?_, ?_, ?_, ?_, ?_, ?_, ?_, ?_⟩
  · exact hnd
  · exact hinv.nodupO
  · exact List.nodup_cons.mpr ⟨hvv, hinv.nodupV⟩
  · intro x
    have hcov := hinv.coverOV x
    simp only [pushNode, List.mem_append, List.mem_singleton, List.mem_cons]
    constructor
    · intro hx
      rcases hx with hx | hx
      · rcases hcov.mp hx with h | h
        · exact Or.inl h
        · exact Or.inr (Or.inr h)
      · simp at hx
        exact Or.inr (Or.inl hx)
    · intro hx
      rcases hx with hx | hx | hx
      · exact Or.inl (hcov.mpr (Or.inl hx))
      · subst hx
        simp
      · exact Or.inl (hcov.mpr (Or.inr hx))
  · intro x hx
    simp only [pushNode, List.mem_cons]
    rintro (rfl | hc)
    · exact hvo hx
    · exact hinv.disjOV x hx hc
  · exact hinv.nodesOrder
  · exact hinv.nodesDefn
  · intro x y hxy hx hy hnr
    simp only [pushNode] at hxy
    have hyD : y ∈ st.discovered := (hinv.coverOV y).mpr (Or.inl hy)
    exact hinv.tieInv x y (pairSub_restrict hnd hxy hyD) hx hy hnr
  · exact hinv.edgeTopo
  · intro e he
    rcases hinv.edgeCons e he with h | h
    · exact Or.inl h
    · exact Or.inr (by simp only [pushNode, List.mem_cons]; exact Or.inr h)
  · exact hinv.edgeFromReq
  · intro u hu r' hr' req hreq
    obtain ⟨h1, h2, h3⟩ := hinv.closedReq u hu r' hr' req hreq
    refine ⟨h1, h2, ?_⟩
    intro p hp
    simp only [pushNode, List.mem_append]
    exact Or.inl (h3 p hp)
  · simp only [pushNode]
    cases hV : st.visiting with
    | nil => trivial
    | cons a t =>
      refine ⟨hpre a (by simp [hV]), ?_⟩
      have := hinv.chainV
      rw [hV] at this
      exact this

theorem rinv_addEdge {idx : Identity → Option RecipeDefinition} {st : ResolveState}
    {v : Identity} {req : Requirement} {r : RecipeDefinition}
    (hinv : RInv idx st) (hhead : st.visiting.head? = some v)
    (hr : idx v = some r) (hreq : req ∈ r.requirements) :
    RInv idx (addEdgeOverrides v req st) := by
  have hvV : v ∈ st.visiting := by
    cases hV : st.visiting with
    | nil => rw [hV] at hhead; simp at hhead
    | cons a t =>
      rw [hV] at hhead
      simp at hhead
      simp [hV, hhead]
  have hvo : v ∉ st.order := fun hc => hinv.disjOV v hc hvV
  refine ⟨hinv.nodupD, hinv.nodupO, hinv.nodupV, hinv.coverOV, hinv.disjOV,
    hinv.nodesOrder, hinv.nodesDefn, hinv.tieInv, ?_, ?_, ?_, ?_, hinv.chainV⟩
  · intro e he
    simp only [addEdgeOverrides, List.mem_append, List.mem_singleton] at he
    rcases he with he | rfl
    · exact hinv.edgeTopo e he
    · intro hc
      exact absurd hc hvo
  · intro e he
    simp only [addEdgeOverrides, List.mem_append, List.mem_singleton] at he
    rcases he with he | rfl
    · exact hinv.edgeCons e he
    · exact Or.inr hvV
  · intro e he
    simp only [addEdgeOverrides, List.mem_append, List.mem_singleton] at he
    rcases he with he | rfl
    · exact hinv.edgeFromReq e he
    · exact ⟨r, req, hr, hreq, rfl, rfl⟩
  · intro u hu r' hr' q hq
    obtain ⟨h1, h2, h3⟩ := hinv.closedReq u hu r' hr' q hq
    refine ⟨h1, by simp only [addEdgeOverrides, List.mem_append]; exact Or.inl h2, ?_⟩
    intro p hp
    simp only [addEdgeOverrides, List.mem_append]
    exact Or.inl (h3 p hp)

theorem rinv_finish {idx : Identity → Option RecipeDefinition}
    {v : Identity} {r : RecipeDefinition} {st st2 : ResolveState} {ld : List Identity}
    (hinv2 : RInv idx st2)
    (hr : idx v = some r)
    (hvv : v ∉ st.visiting)
    (hvis : st2.visiting = v :: st.visiting)
    (hd2 : st2.discovered = (st.discovered ++ [v]) ++ ld)
    (hld : ∀ x ∈ ld, ∃ req, req ∈ r.requirements ∧ Reaches idx req.dep x)
    (hb2 : ∀ req ∈ r.requirements, req.dep ∈ st2.order ∧
      GraphEdge.mk v req.dep req.kind ∈ st2.edges ∧
      ∀ p ∈ req.overrides, OverrideEntry.mk (.recipeSource v) req.dep.name p.1 p.2 ∈ st2.overTbl) :
    RInv idx (finishNode v r st2) := by
  have hvO2 : v ∉ st2.order := fun hc => by
    have := hinv2.disjOV v hc
    rw [hvis] at this
    exact this (List.mem_cons_self v st.visiting)
  have hndD := hinv2.nodupD
  rw [hd2] at hndD
  obtain ⟨hnd1, hndld, hdisj1⟩ := List.nodup_append.mp hndD
  obtain ⟨hndD0, -, hdisj0⟩ := List.nodup_append.mp hnd1
  have hvD : v ∉ st.discovered := fun hc =>
    hdisj0 hc (List.mem_singleton.mpr rfl)
  have hvld : v ∉ ld := fun hc =>
    hdisj1 (List.mem_append_right st.discovered (List.mem_singleton.mpr rfl)) hc
  have hvtl : (finishNode v r st2).visiting = st.visiting := by
    simp [finishNode, hvis]
  refine ⟨?_, ?_, ?_, ?_, ?_, ?_, ?_, ?_, ?_, ?_, ?_, ?_, ?_⟩
  · exact hinv2.nodupD
  · show (st2.order ++ [v]).Nodup
    rw [List.nodup_append]
    refine ⟨hinv2.nodupO, List.nodup_singleton v, ?_⟩
    intro a ha hav
    rw [List.mem_singleton] at hav
    exact hvO2 (hav ▸ ha)
  · rw [hvtl]
    have := hinv2.nodupV
    rw [hvis] at this
    exact this.of_cons
  · intro x
    rw [hvtl]
    have hcov := hinv2.coverOV x
    rw [hvis] at hcov
    show x ∈ st2.discovered ↔ x ∈ st2.order ++ [v] ∨ x ∈ st.visiting
    rw [hcov]
    simp only [List.mem_append, List.mem_singleton, List.mem_cons]
    tauto
  · intro x hx
    rw [hvtl]
    rcases List.mem_append.mp hx with hx | hx
    · have := hinv2.disjOV x hx
      rw [hvis] at this
      exact fun hc => this (List.mem_cons_of_mem v hc)
    · rw [List.mem_singleton] at hx
      exact hx ▸ hvv
  · show (st2.nodes ++ [GraphNode.mk v r]).map GraphNode.ident = st2.order ++ [v]
    simp [hinv2.nodesOrder]
  · intro n hn
    rcases List.mem_append.mp hn with hn | hn
    · exact hinv2.nodesDefn n hn
    · rw [List.mem_singleton] at hn
      subst hn
      exact hr
  · intro x y hxy hx hy hnr
    show [x, y].Sublist (st2.order ++ [v])
    have hxy' : [x, y].Sublist st2.discovered := hxy
    rcases List.mem_append.mp hy with hy | hy
    · rcases List.mem_append.mp hx with hx | hx
      · exact pairSub_extend (hinv2.tieInv x y hxy' hx hy hnr)
      · rw [List.mem_singleton] at hx
        subst hx
        exfalso
        rw [hd2] at hxy'
        have hyld : y ∈ ld := by
          rcases pairSub_append_cases hxy' with h1 | h2 | h3
          · rcases pairSub_append_cases h1 with h4 | h5 | h6
            · exact absurd (pairSub_mem_left h4) hvD
            · have := h5.length_le
              simp at this
            · exact absurd h6.1 hvD
          · exact pairSub_mem_right h2
          · exact h3.2
        obtain ⟨req, hmem, hre⟩ := hld y hyld
        exact hnr (Reaches.step ⟨r, req, hr, hmem, rfl⟩ hre)
    · rw [List.mem_singleton] at hy
      subst hy
      rcases List.mem_append.mp hx with hx | hx
      · exact pairSub_of_mem_mem hx (List.mem_singleton.mpr rfl)
      · rw [List.mem_singleton] at hx
        subst hx
        exact absurd (Reaches.refl x) hnr
  · intro e he hc
    show [e.dep, e.consumer].Sublist (st2.order ++ [v])
    rcases List.mem_append.mp hc with hc | hc
    · exact pairSub_extend (hinv2.edgeTopo e he hc)
    · rw [List.mem_singleton] at hc
      obtain ⟨r', req, hr', hreq, hdep, -⟩ := hinv2.edgeFromReq e he
      rw [hc] at hr'
      have hrr : r' = r := by
        rw [hr] at hr'
        exact (Option.some.inj hr').symm
      have hdepO : e.dep ∈ st2.order := hdep ▸ (hb2 req (hrr ▸ hreq)).1
      rw [hc]
      exact pairSub_of_mem_mem hdepO (List.mem_singleton.mpr rfl)
  · intro e he
    rw [hvtl]
    rcases hinv2.edgeCons e he with h | h
    · exact Or.inl (List.mem_append_left [v] h)
    · rw [hvis] at h
      rcases List.mem_cons.mp h with h | h
      · exact Or.inl (List.mem_append_right st2.order (List.mem_singleton.mpr h))
      · exact Or.inr h
  · exact hinv2.edgeFromReq
  · intro u hu r' hr' q hq
    rcases List.mem_append.mp hu with hu | hu
    · obtain ⟨h1, h2, h3⟩ := hinv2.closedReq u hu r' hr' q hq
      exact ⟨List.mem_append_left [v] h1, h2, h3⟩
    · rw [List.mem_singleton] at hu
      have hrr : r' = r := by
        rw [hu, hr] at hr'
        exact (Option.some.inj hr').symm
      obtain ⟨h1, h2, h3⟩ := hb2 q (hrr ▸ hq)
      rw [hu]
      exact ⟨List.mem_append_left [v] h1, h2, h3⟩
  · rw [hvtl]
    have := hinv2.chainV
    rw [hvis] at this
    exact visChain_tail this

/-- Precondition of a traversal task: a node visit is always requested by the
head of the visiting stack (when any), and a requirement-list task processes a
suffix of the requirements of the recipe of the stack head. -/
def TaskPre (idx : Identity → Option RecipeDefinition) : RTask → ResolveState → Prop
  | .node v, st => ∀ h, st.visiting.head? = some h → Requires idx h v
  | .reqsOf v reqs, st => st.visiting.head? = some v ∧
      ∃ r, idx v = some r ∧ ∀ req ∈ reqs, req ∈ r.requirements

/-- Postcondition of a successful traversal task: every newly discovered
identity is reachable from the task's target, and every processed requirement
has its dependency ordered, its edge recorded, and its overrides merged. -/
def TaskPost (idx : Identity → Option RecipeDefinition) :
    RTask → ResolveState → ResolveState → Prop
  | .node v, st, st' =>
      (∃ l, st'.discovered = st.discovered ++ l ∧ ∀ x ∈ l, Reaches idx v x) ∧
      v ∈ st'.order
  | .reqsOf v reqs, st, st' =>
      (∃ l, st'.discovered = st.discovered ++ l ∧
        ∀ x ∈ l, ∃ req, req ∈ reqs ∧ Reaches idx req.dep x) ∧
      ∀ req ∈ reqs, req.dep ∈ st'.order ∧ GraphEdge.mk v req.dep req.kind ∈ st'.edges ∧
        ∀ p ∈ req.overrides,
          OverrideEntry.mk (.recipeSource v) req.dep.name p.1 p.2 ∈ st'.overTbl

/-- Main invariant theorem of the traversal: a successful call preserves the
resolution invariant and satisfies the task postcondition. -/
theorem runResolve_invariant (idx : Identity → Option RecipeDefinition) :
    ∀ fuel task st st',
      runResolve idx fuel task st = .ok st' → TaskPre idx task st → RInv idx st →
      RInv idx st' ∧ TaskPost idx task st st' := by
  intro fuel
  induction fuel with
  | zero => intro task st st' h _ _; simp [runResolve] at h
  | succ n ih =>
    intro task st st' h hpre hinv
    cases task with
    | node v =>
      simp only [runResolve] at h
      split at h
      · rename_i hvo
        injection h with h'
        subst h'
        exact ⟨hinv, ⟨[], by simp, by simp⟩, hvo⟩
      · rename_i hvo
        split at h
        · simp at h
        · rename_i hvv
          split at h
          · simp at h
          · rename_i r hr
            split at h
            · rename_i st2 hst2
              injection h with h'
              subst h'
              have hinv1 : RInv idx (pushNode v r st) := rinv_push hinv hvo hvv hpre
              have hpre1 : TaskPre idx (.reqsOf v r.requirements) (pushNode v r st) := by
                refine ⟨by simp [pushNode], r, hr, fun req hreq => hreq⟩
              obtain ⟨hinv2, hpost2⟩ :=
                ih (.reqsOf v r.requirements) (pushNode v r st) st2 hst2 hpre1 hinv1
              obtain ⟨⟨l, hd, hreach⟩, hb⟩ := hpost2
              have hext := runResolve_extends idx n _ _ _ hst2
              have hvis : st2.visiting = v :: st.visiting := hext.1
              have hd' : st2.discovered = (st.discovered ++ [v]) ++ l := hd
              have hreach' : ∀ x ∈ l, ∃ req, req ∈ r.requirements ∧ Reaches idx req.dep x :=
                hreach
              refine ⟨rinv_finish hinv2 hr hvv hvis hd' hreach' hb, ?_, ?_⟩
              · refine ⟨[v] ++ l, ?_, ?_⟩
                · show st2.discovered = st.discovered ++ ([v] ++ l)
                  rw [hd']
                  simp
                · intro x hx
                  rcases List.mem_append.mp hx with hx | hx
                  · rw [List.mem_singleton] at hx
                    subst hx
                    exact Reaches.refl _
                  · obtain ⟨req, hmem, hre⟩ := hreach x hx
                    exact Reaches.step ⟨r, req, hr, hmem, rfl⟩ hre
              · show v ∈ st2.order ++ [v]
                exact List.mem_append_right st2.order (List.mem_singleton.mpr rfl)
            · simp at h
    | reqsOf v reqs =>
      cases reqs with
      | nil =>
        simp only [runResolve] at h
        injection h with h'
        subst h'
        refine ⟨hinv, ⟨[], by simp, by simp⟩, ?_⟩
        intro req hreq
        cases hreq
      | cons req rest =>
        simp only [runResolve] at h
        split at h
        · rename_i st2 hst2
          obtain ⟨hhead, r, hr, hsub⟩ := hpre
          have hinv1 : RInv idx (addEdgeOverrides v req st) :=
            rinv_addEdge hinv hhead hr (hsub req (List.mem_cons_self req rest))
          have hpre1 : TaskPre idx (.node req.dep) (addEdgeOverrides v req st) := by
            intro h' hh'
            have : h' = v := by
              have : (addEdgeOverrides v req st).visiting = st.visiting := rfl
              rw [this, hhead] at hh'
              exact (Option.some.inj hh').symm
            subst this
            exact ⟨r, req, hr, hsub req (List.mem_cons_self req rest), rfl⟩
          obtain ⟨hinv2, hpostn⟩ :=
            ih (.node req.dep) (addEdgeOverrides v req st) st2 hst2 hpre1 hinv1
          have hextn := runResolve_extends idx n _ _ _ hst2
          have hvis2 : st2.visiting = st.visiting := hextn.1
          have hpre2 : TaskPre idx (.reqsOf v rest) st2 := by
            refine ⟨by rw [hvis2]; exact hhead, r, hr, fun q hq => hsub q (List.mem_cons_of_mem req hq)⟩
          obtain ⟨hinv', hpostr⟩ := ih (.reqsOf v rest) st2 st' h hpre2 hinv2
          have hextr := runResolve_extends idx n _ _ _ h
          obtain ⟨⟨l1, hd1, hre1⟩, hdepO⟩ := hpostn
          obtain ⟨⟨l2, hd2, hre2⟩, hrest⟩ := hpostr
          refine ⟨hinv', ⟨l1 ++ l2, ?_, ?_⟩, ?_⟩
          · rw [hd2, hd1]
            show (st.discovered ++ l1) ++ l2 = st.discovered ++ (l1 ++ l2)
            simp
          · intro x hx
            rcases List.mem_append.mp hx with hx | hx
            · exact ⟨req, List.mem_cons_self req rest, hre1 x hx⟩
            · obtain ⟨q, hq, hqre⟩ := hre2 x hx
              exact ⟨q, List.mem_cons_of_mem req hq, hqre⟩
          · intro q hq
            rcases List.mem_cons.mp hq with rfl | hq
            · obtain ⟨o2, ho2⟩ := hextr.2.2.1
              obtain ⟨e2, he2⟩ := hextr.2.2.2.2.1
              obtain ⟨en, hen⟩ := hextn.2.2.2.2.1
              obtain ⟨t2, ht2⟩ := hextr.2.2.2.2.2
              obtain ⟨tn, htn⟩ := hextn.2.2.2.2.2
              refine ⟨?_, ?_, ?_⟩
              · rw [ho2]
                exact List.mem_append_left o2 hdepO
              · rw [he2, hen]
                show GraphEdge.mk v q.dep q.kind ∈
                  ((st.edges ++ [GraphEdge.mk v q.dep q.kind]) ++ en) ++ e2
                refine List.mem_append_left e2 (List.mem_append_left en ?_)
                exact List.mem_append_right st.edges (List.mem_singleton.mpr rfl)
              · intro p hp
                rw [ht2, htn]
                show OverrideEntry.mk (.recipeSource v) q.dep.name p.1 p.2 ∈
                  ((st.overTbl ++
                    q.overrides.map (fun p => ⟨.recipeSource v, q.dep.name, p.1, p.2⟩)) ++ tn) ++ t2
                refine List.mem_append_left t2 (List.mem_append_left tn ?_)
                refine List.mem_append_right st.overTbl ?_
                exact List.mem_map_of_mem _ hp
            · exact hrest q hq
        · simp at h

/-- Any state with empty traversal components satisfies the invariant,
whatever the initial override table. -/
theorem rinv_init (idx : Identity → Option RecipeDefinition) (tbl : List OverrideEntry) :
    RInv idx { emptyState with overTbl := tbl } := by
  refine ⟨?_, ?_, ?_, ?_, ?_, ?_, ?_, ?_, ?_, ?_, ?_, ?_, ?_⟩ <;>
    simp [emptyState, VisChain]

/-- Resolving a list of roots from an invariant state with an empty visiting
stack preserves the invariant, extends the state, and puts every root in the
output order. -/
theorem resolveRoots_ok (idx : Identity → Option RecipeDefinition) (fuel : Nat) :
    ∀ roots st st', resolveRoots idx fuel roots st = .ok st' → st.visiting = [] →
      RInv idx st → RInv idx st' ∧ StExt st st' ∧ ∀ rt ∈ roots, rt ∈ st'.order := by
  intro roots
  induction roots with
  | nil =>
    intro st st' h hv hinv
    simp only [resolveRoots] at h
    injection h with h'
    subst h'
    exact ⟨hinv, stExt_refl st, by simp⟩
  | cons root rest ih =>
    intro st st' h hv hinv
    simp only [resolveRoots] at h
    split at h
    · rename_i st1 hst1
      have hpre : TaskPre idx (.node root) st := by
        intro a ha
        rw [hv] at ha
        simp at ha
      obtain ⟨hinv1, ⟨-, hrootO⟩⟩ := runResolve_invariant idx fuel (.node root) st st1 hst1 hpre hinv
      have hext1 := runResolve_extends idx fuel _ _ _ hst1
      have hv1 : st1.visiting = [] := by rw [hext1.1, hv]
      obtain ⟨hinv', hext', hmem'⟩ := ih st1 st' h hv1 hinv1
      refine ⟨hinv', stExt_trans hext1 hext', ?_⟩
      intro a ha
      rcases List.mem_cons.mp ha with rfl | ha
      · obtain ⟨l, hl⟩ := hext'.2.2.1
        rw [hl]
        exact List.mem_append_left l hrootO
      · exact hmem' a ha
    · simp at h

/-- A successful `resolveGraph` yields an invariant state with an empty
visiting stack containing every root. -/
theorem resolveGraph_inv {roots : List Identity} {reg : LocalRecipeRegistry}
    {ext : List RecipeDefinition} {userOpts : List (String × String × OptionValue)}
    {g : ResolveState} (h : resolveGraph roots reg ext userOpts = .ok g) :
    RInv (lookupRecipe reg ext) g ∧ g.visiting = [] ∧ ∀ rt ∈ roots, rt ∈ g.order := by
  obtain ⟨hinv, hext, hmem⟩ :=
    resolveRoots_ok (lookupRecipe reg ext) (fuelFor reg ext) roots _ g h rfl
      (rinv_init (lookupRecipe reg ext) _)
  exact ⟨hinv, by rw [hext.1]; rfl, hmem⟩

/-- A recipe whose requirement list is empty (under the given index) reaches
no identity other than itself. -/
theorem no_reach_of_no_reqs {idx : Identity → Option RecipeDefinition} {a b : Identity}
    (ha : ∀ r, idx a = some r → r.requirements = []) (hne : a ≠ b) :
    ¬ Reaches idx a b := by
  intro h
  cases h with
  | refl => exact hne rfl
  | step hreq hrest =>
    obtain ⟨r, req, hr, hmem, -⟩ := hreq
    rw [ha r hr] at hmem
    cases hmem

/-- Claim C1: for every acyclic set of root recipes, the order produced by the
resolver is a valid topological order of the resolved graph — for every
requirement edge the dependency precedes the consumer in the output order —
and ties between identities with no requirement path between them are broken
by first-discovery order of the depth-first traversal. -/
theorem resolver_topological_order (roots : List Identity) (reg : LocalRecipeRegistry)
    (ext : List RecipeDefinition) (userOpts : List (String × String × OptionValue))
    (g : ResolveState) (h : resolveGraph roots reg ext userOpts = .ok g) :
    (∀ e ∈ g.edges, [e.dep, e.consumer].Sublist g.order) ∧
    (∀ x y, [x, y].Sublist g.discovered → ¬ Reaches (lookupRecipe reg ext) x y →
      [x, y].Sublist g.order) := by
  obtain ⟨hinv, hvis, -⟩ := resolveGraph_inv h
  constructor
  · intro e he
    rcases hinv.edgeCons e he with hc | hc
    · exact hinv.edgeTopo e he hc
    · rw [hvis] at hc
      cases hc
  · intro x y hxy hnr
    have hx : x ∈ g.discovered := pairSub_mem_left hxy
    have hy : y ∈ g.discovered := pairSub_mem_right hxy
    have hx' : x ∈ g.order := by
      rcases (hinv.coverOV x).mp hx with h' | h'
      · exact h'
      · rw [hvis] at h'; cases h'
    have hy' : y ∈ g.order := by
      rcases (hinv.coverOV y).mp hy with h' | h'
      · exact h'
      · rw [hvis] at h'; cases h'
    exact hinv.tieInv x y hxy hx' hy' hnr

def wAId : Identity := mkId "alpha" "1.0"

def wBId : Identity := mkId "beta" "1.0"

def wExt : List RecipeDefinition := [leafRecipe wAId [], leafRecipe wBId []]

def wGraph : ResolveState := getOk (resolveGraph [wAId, wBId] ⟨[]⟩ wExt [])

theorem resolver_topological_order_witness : [wAId, wBId].Sublist wGraph.order := by
  have h := resolver_topological_order [wAId, wBId] ⟨[]⟩ wExt [] wGraph rfl
  refine h.2 wAId wBId ?_ ?_
  · have hd : wGraph.discovered = [wAId, wBId] := by decide
    rw [hd]
  · refine no_reach_of_no_reqs ?_ (by decide)
    intro r hr
    have h0 : lookupRecipe ⟨[]⟩ wExt wAId = some (leafRecipe wAId []) := rfl
    rw [h0] at hr
    obtain rfl : leafRecipe wAId [] = r := Option.some.inj hr
    rfl

/-- Claim C2: every resolved graph has exactly one node per identity (diamond
collapse), and every requirement of an ordered node has its dependency in the
graph, its edge recorded, and its explicit overrides merged into the override
table instead of creating a duplicate node. -/
theorem resolver_diamond_collapse (roots : List Identity) (reg : LocalRecipeRegistry)
    (ext : List RecipeDefinition) (userOpts : List (String × String × OptionValue))
    (g : ResolveState) (h : resolveGraph roots reg ext userOpts = .ok g) :
    (g.nodes.map GraphNode.ident).Nodup ∧
    (∀ u ∈ g.order, ∀ r, lookupRecipe reg ext u = some r → ∀ req ∈ r.requirements,
      req.dep ∈ g.order ∧ GraphEdge.mk u req.dep req.kind ∈ g.edges ∧
      ∀ p ∈ req.overrides,
        OverrideEntry.mk (.recipeSource u) req.dep.name p.1 p.2 ∈ g.overTbl) := by
  obtain ⟨hinv, -, -⟩ := resolveGraph_inv h
  constructor
  · rw [hinv.nodesOrder]
    exact hinv.nodupO
  · exact hinv.closedReq

def dAId : Identity := mkId "aggA" "1.0"

def dBId : Identity := mkId "aggB" "1.0"

def dDId : Identity := mkId "shareddep" "1.0"

def dARec : RecipeDefinition :=
  { identity := dAId, requirements := [⟨dDId, .runtime, [("shared", .boolVal true)]⟩] }

def dBRec : RecipeDefinition :=
  { identity := dBId, requirements := [rt dDId] }

def dExt : List RecipeDefinition := [dARec, dBRec, leafRecipe dDId []]

def dGraph : ResolveState := getOk (resolveGraph [dAId, dBId] ⟨[]⟩ dExt [])

theorem resolver_diamond_collapse_witness :
    (dGraph.nodes.map GraphNode.ident).Nodup ∧
    OverrideEntry.mk (.recipeSource dAId) dDId.name "shared" (.boolVal true) ∈
      dGraph.overTbl := by
  have h := resolver_diamond_collapse [dAId, dBId] ⟨[]⟩ dExt [] dGraph rfl
  refine ⟨h.1, ?_⟩
  have h2 := h.2 dAId (by decide) dARec rfl
    ⟨dDId, .runtime, [("shared", .boolVal true)]⟩ (by decide)
  exact h2.2.2 ("shared", .boolVal true) (by decide)

theorem dGraph_order_eq : dGraph.order = [dDId, dAId, dBId] := by decide

/-! ## Option propagation -/

/-- Errors of the propagation phase. -/
inductive PropagationError where
  | optionConflict (src1 src2 : OverrideSource) (target key : String) (v1 v2 : OptionValue)
deriving DecidableEq

/-- First pair of override entries addressed to the same (package, key) with
different values, scanning in table order. -/
def findConflict : List OverrideEntry → Option (OverrideEntry × OverrideEntry)
  | [] => none
  | e :: rest =>
    match rest.find?
        (fun e2 => decide (e2.target = e.target ∧ e2.key = e.key ∧ e2.value ≠ e.value)) with
    | some e2 => some (e, e2)
    | none => findConflict rest

/-- Final value of one option of a package: the first override addressed to it,
or the declared default. -/
def resolvedOption (tbl : List OverrideEntry) (pkg key : String)
    (dflt : OptionValue) : OptionValue :=
  match tbl.find? (fun e => decide (e.target = pkg ∧ e.key = key)) with
  | some e => e.value
  | none => dflt

/-- A graph node together with its final, post-propagation option values. -/
structure ResolvedNode where
  ident : Identity
  defn : RecipeDefinition
  options : List (String × OptionValue)
deriving DecidableEq

/-- Modelled from the spec: `OptionPropagationEngine.propagate` (section 4.3),
which is not present under `src/`.  If two entries of the override table
assert different values for the same (package, key), a fatal option-conflict
error carrying both sources and both values is raised; otherwise every node
starts from its declared defaults and each override addressed to its package
name is applied. -/
def propagate (g : ResolveState) : Except PropagationError (List ResolvedNode) :=
  match findConflict g.overTbl with
  | some (e1, e2) =>
    .error (.optionConflict e1.src e2.src e1.target e1.key e1.value e2.value)
  | none =>
    .ok (g.nodes.map fun n =>
      ⟨n.ident, n.defn, n.defn.optionDefaults.map fun kv =>
        (kv.1, resolvedOption g.overTbl n.ident.name kv.1 kv.2)⟩)

theorem findConflict_none :
    ∀ l : List OverrideEntry, findConflict l = none →
      ∀ e1 e2 : OverrideEntry, [e1, e2].Sublist l → e1.target = e2.target →
        e1.key = e2.key → e1.value = e2.value := by
  intro l
  induction l with
  | nil =>
    intro _ e1 e2 hsub
    cases hsub
  | cons e rest ih =>
    intro h e1 e2 hsub ht hk
    have hsplit : rest.find?
        (fun e2 => decide (e2.target = e.target ∧ e2.key = e.key ∧ e2.value ≠ e.value)) = none ∧
        findConflict rest = none := by
      rw [findConflict] at h
      split at h
      · simp at h
      · rename_i hfind
        exact ⟨hfind, h⟩
    obtain ⟨hfind, hrest⟩ := hsplit
    cases hsub with
    | cons _ hsub' => exact ih hrest e1 e2 hsub' ht hk
    | cons₂ _ hsub' =>
      have he2 : e2 ∈ rest := List.singleton_sublist.mp hsub'
      have hpred := List.find?_eq_none.mp hfind e2 he2
      by_contra hne
      apply hpred
      simp only [decide_eq_true_eq]
      exact ⟨ht.symm, hk.symm, fun hc => hne (hc.symm)⟩

theorem findConflict_some :
    ∀ l : List OverrideEntry, ∀ e1 e2 : OverrideEntry, findConflict l = some (e1, e2) →
      [e1, e2].Sublist l ∧ e1.target = e2.target ∧ e1.key = e2.key ∧ e1.value ≠ e2.value := by
  intro l
  induction l with
  | nil => intro e1 e2 h; simp [findConflict] at h
  | cons e rest ih =>
    intro e1 e2 h
    rw [findConflict] at h
    split at h
    · rename_i e2' hfind
      injection h with h'
      obtain ⟨rfl, rfl⟩ : e = e1 ∧ e2' = e2 := by
        constructor
        · exact congrArg Prod.fst h'
        · exact congrArg Prod.snd h'
      have hmem := List.mem_of_find?_eq_some hfind
      have hpred := List.find?_some hfind
      simp only [decide_eq_true_eq] at hpred
      obtain ⟨ht, hk, hv⟩ := hpred
      refine ⟨(List.singleton_sublist.mpr hmem).cons₂ _, ht.symm, hk.symm, fun hc => hv hc.symm⟩
    · obtain ⟨hsub, ht, hk, hv⟩ := ih e1 e2 h
      exact ⟨hsub.cons e, ht, hk, hv⟩

theorem find?_first {α : Type} (p : α → Bool) :
    ∀ (l : List α) (a : α), l.find? p = some a → ∀ b ∈ l, p b = true →
      b = a ∨ [a, b].Sublist l := by
  intro l
  induction l with
  | nil => intro a h; simp at h
  | cons x rest ih =>
    intro a h b hb hpb
    rw [List.find?_cons] at h
    split at h
    · injection h with h'
      subst h'
      rcases List.mem_cons.mp hb with rfl | hb'
      · exact Or.inl rfl
      · exact Or.inr ((List.singleton_sublist.mpr hb').cons₂ _)
    · rename_i hpx
      rcases List.mem_cons.mp hb with rfl | hb'
      · rw [hpb] at hpx
        simp at hpx
      · rcases ih a h b hb' hpb with h1 | h2
        · exact Or.inl h1
        · exact Or.inr (h2.cons x)

/-- Claim C3: two overrides addressed to the same (target package, option key)
with different values make `propagate` raise an option-conflict error carrying
both source identities and both values, never silently picking one; a reported
conflict always corresponds to two actual table entries; and when entries
agree, propagation succeeds and assigns exactly the asserted value. -/
theorem option_conflict_detection (g : ResolveState) :
    (∀ e1 e2 : OverrideEntry, [e1, e2].Sublist g.overTbl → e1.target = e2.target →
      e1.key = e2.key → e1.value ≠ e2.value →
      ∃ s1 s2 t k v1 v2,
        propagate g = .error (.optionConflict s1 s2 t k v1 v2) ∧ v1 ≠ v2) ∧
    (∀ s1 s2 t k v1 v2, propagate g = .error (.optionConflict s1 s2 t k v1 v2) →
      ∃ e1 e2 : OverrideEntry, [e1, e2].Sublist g.overTbl ∧
        e1.src = s1 ∧ e1.target = t ∧ e1.key = k ∧ e1.value = v1 ∧
        e2.src = s2 ∧ e2.target = t ∧ e2.key = k ∧ e2.value = v2 ∧ v1 ≠ v2) ∧
    (∀ ns, propagate g = .ok ns → ∀ n ∈ ns, ∀ kv ∈ n.options, ∀ e ∈ g.overTbl,
      e.target = n.ident.name → e.key = kv.1 → kv.2 = e.value) := by
  refine ⟨?_, ?_, ?_⟩
  · intro e1 e2 hsub ht hk hv
    cases hfc : findConflict g.overTbl with
    | none => exact absurd (findConflict_none g.overTbl hfc e1 e2 hsub ht hk) hv
    | some p =>
      obtain ⟨p1, p2⟩ := p
      have hprop : propagate g =
          .error (.optionConflict p1.src p2.src p1.target p1.key p1.value p2.value) := by
        unfold propagate
        rw [hfc]
      obtain ⟨-, -, -, hvne⟩ := findConflict_some g.overTbl p1 p2 hfc
      exact ⟨p1.src, p2.src, p1.target, p1.key, p1.value, p2.value, hprop, hvne⟩
  · intro s1 s2 t k v1 v2 h
    cases hfc : findConflict g.overTbl with
    | none =>
      have : propagate g = .ok (g.nodes.map fun n =>
          ⟨n.ident, n.defn, n.defn.optionDefaults.map fun kv =>
            (kv.1, resolvedOption g.overTbl n.ident.name kv.1 kv.2)⟩) := by
        unfold propagate
        rw [hfc]
      rw [this] at h
      cases h
    | some p =>
      obtain ⟨p1, p2⟩ := p
      have hprop : propagate g =
          .error (.optionConflict p1.src p2.src p1.target p1.key p1.value p2.value) := by
        unfold propagate
        rw [hfc]
      rw [hprop] at h
      injection h with h'
      obtain ⟨hs1, hs2, ht, hk, hv1, hv2⟩ :
          p1.src = s1 ∧ p2.src = s2 ∧ p1.target = t ∧ p1.key = k ∧
          p1.value = v1 ∧ p2.value = v2 := by
        cases h'
        exact ⟨rfl, rfl, rfl, rfl, rfl, rfl⟩
      obtain ⟨hsub, hteq, hkeq, hvne⟩ := findConflict_some g.overTbl p1 p2 hfc
      exact ⟨p1, p2, hsub, hs1, ht, hk, hv1, hs2, hteq ▸ ht, hkeq ▸ hk, hv2,
        hv1 ▸ hv2 ▸ hvne⟩
  · intro ns h n hn kv hkv e he hte hke
    cases hfc : findConflict g.overTbl with
    | some p =>
      obtain ⟨p1, p2⟩ := p
      have : propagate g =
          .error (.optionConflict p1.src p2.src p1.target p1.key p1.value p2.value) := by
        unfold propagate
        rw [hfc]
      rw [this] at h
      cases h
    | none =>
      have hok : propagate g = .ok (g.nodes.map fun n =>
          ⟨n.ident, n.defn, n.defn.optionDefaults.map fun kv =>
            (kv.1, resolvedOption g.overTbl n.ident.name kv.1 kv.2)⟩) := by
        unfold propagate
        rw [hfc]
      rw [hok] at h
      injection h with h'
      subst h'
      obtain ⟨n0, hn0, rfl⟩ := List.mem_map.mp hn
      obtain ⟨kv0, hkv0, rfl⟩ := List.mem_map.mp hkv
      show resolvedOption g.overTbl n0.ident.name kv0.1 kv0.2 = e.value
      unfold resolvedOption
      have hpe : (fun e' : OverrideEntry =>
          decide (e'.target = n0.ident.name ∧ e'.key = kv0.1)) e = true := by
        simp only [decide_eq_true_eq]
        exact ⟨hte, hke⟩
      cases hfind : g.overTbl.find?
          (fun e' => decide (e'.target = n0.ident.name ∧ e'.key = kv0.1)) with
      | none =>
        exact absurd hpe (by
          have := List.find?_eq_none.mp hfind e he
          simpa using this)
      | some e' =>
        have hpe' := List.find?_some hfind
        simp only [decide_eq_true_eq] at hpe'
        obtain ⟨hte', hke'⟩ := hpe'
        rcases find?_first _ g.overTbl e' hfind e he hpe with rfl | hsub
        · rfl
        · exact findConflict_none g.overTbl hfc e' e hsub (hte'.trans hte.symm)
            (hke'.trans hke.symm)

def c3St : ResolveState :=
  { emptyState with overTbl :=
      [⟨.userSource, "openssl", "shared", .boolVal true⟩,
       ⟨.recipeSource softhsmId, "openssl", "shared", .boolVal false⟩] }

theorem option_conflict_detection_witness :
    propagate c3St = .error (.optionConflict .userSource (.recipeSource softhsmId)
      "openssl" "shared" (.boolVal true) (.boolVal false)) := by
  obtain ⟨s1, s2, t, k, v1, v2, h, hne⟩ :=
    (option_conflict_detection c3St).1
      ⟨.userSource, "openssl", "shared", .boolVal true⟩
      ⟨.recipeSource softhsmId, "openssl", "shared", .boolVal false⟩
      (List.Sublist.refl _) rfl rfl (by decide)
  have hc : propagate c3St = .error (.optionConflict .userSource
      (.recipeSource softhsmId) "openssl" "shared" (.boolVal true) (.boolVal false)) := by
    rfl
  exact hc

/-! ## Resolution pipeline -/

/-- Errors of the combined resolve-and-propagate pipeline. -/
inductive EngineError where
  | resolveErr (e : ResolveError)
  | propErr (e : PropagationError)
deriving DecidableEq

/-- Modelled from the spec: the resolution phase of the engine (sections 2 and
5), which is not present under `src/` — graph construction followed by option
propagation, all before any build work. -/
def resolveAndPropagate (roots : List Identity) (reg : LocalRecipeRegistry)
    (ext : List RecipeDefinition) (userOpts : List (String × String × OptionValue)) :
    Except EngineError (ResolveState × List ResolvedNode) :=
  match resolveGraph roots reg ext userOpts with
  | .error e => .error (.resolveErr e)
  | .ok g =>
    match propagate g with
    | .error e => .error (.propErr e)
    | .ok ns => .ok (g, ns)

/-- Claim C7: resolution is deterministic — two runs on identical root recipes
and identical override inputs produce byte-identical resolved graphs: same
node set, same topological order, same final option values. -/
theorem resolution_deterministic (r1 r2 : List Identity)
    (reg1 reg2 : LocalRecipeRegistry) (ext1 ext2 : List RecipeDefinition)
    (u1 u2 : List (String × String × OptionValue))
    (hr : r1 = r2) (hreg : reg1 = reg2) (hext : ext1 = ext2) (hu : u1 = u2) :
    resolveGraph r1 reg1 ext1 u1 = resolveGraph r2 reg2 ext2 u2 ∧
    resolveAndPropagate r1 reg1 ext1 u1 = resolveAndPropagate r2 reg2 ext2 u2 := by
  subst hr
  subst hreg
  subst hext
  subst hu
  exact ⟨rfl, rfl⟩

theorem resolution_deterministic_witness :
    resolveGraph [aosId, softhsmId] localReg externalIndex [] =
      resolveGraph [aosId, softhsmId] localReg externalIndex [] ∧
    resolveAndPropagate [aosId, softhsmId] localReg externalIndex [] =
      resolveAndPropagate [aosId, softhsmId] localReg externalIndex [] :=
  resolution_deterministic _ _ _ _ _ _ _ _ rfl rfl rfl rfl

/-- Option values propagated onto the nodes resolved from both root recipes. -/
def bothResolved : List ResolvedNode :=
  match propagate bothGraph with
  | .ok ns => ns
  | .error _ => []

/-- Final option values of the single openssl node of the combined graph. -/
def opensslOpts : List (String × OptionValue) :=
  match bothResolved.find? (fun n => decide (n.ident = opensslId)) with
  | some n => n.options
  | none => []

/-- Claim C10: the configure-stage overrides of AosCommonCpp and SoftHSMConan
on the shared openssl dependency assign identical values (shared = True,
no_dso = False); propagation over the graph containing both recipes succeeds
without an option conflict and yields exactly those values on the single
openssl node. -/
theorem openssl_override_agreement :
    AosCommonCpp.configOverrides = SoftHSMConan.configOverrides ∧
    (propagate bothGraph).isOk = true ∧
    opensslOpts = [("shared", .boolVal true), ("no_dso", .boolVal false)] := by
  decide

/-! ## Lifecycle execution -/

/-- Build status of a node. -/
inductive BuildStatus where
  | unresolvedStatus
  | builtStatus
  | failedStatus
deriving DecidableEq

/-- Execution state: per-node build statuses (append-only, one entry per node)
and the trace of invoked lifecycle stages. -/
structure ExecState where
  statuses : List (Identity × BuildStatus) := []
  stageTrace : List (Identity × Stage) := []
deriving DecidableEq

/-- Status recorded for an identity in a status list. -/
def statusIn (l : List (Identity × BuildStatus)) (v : Identity) : BuildStatus :=
  match l.find? (fun p => decide (p.1 = v)) with
  | some p => p.2
  | none => .unresolvedStatus

/-- Status of a node in the execution state. -/
def statusOf (st : ExecState) (v : Identity) : BuildStatus :=
  statusIn st.statuses v

/-- Stages invoked for a node, in invocation order. -/
def traceOf (st : ExecState) (v : Identity) : List Stage :=
  (st.stageTrace.filter (fun p => decide (p.1 = v))).map Prod.snd

/-- Runtime and tool dependencies of a node, read off the graph edges. -/
def depsOf (edges : List GraphEdge) (v : Identity) : List Identity :=
  (edges.filter (fun e => decide (e.consumer = v))).map GraphEdge.dep

/-- Run the implemented stages of the given sequence in order, stopping at the
first failing stage; unimplemented stages are no-ops.  Returns the list of
invoked stages and the success flag. -/
def runStagesAux (outcome : Stage → Bool) (caps : List Stage) :
    List Stage → List Stage × Bool
  | [] => ([], true)
  | s :: rest =>
    if s ∈ caps then
      if outcome s then
        ((s :: (runStagesAux outcome caps rest).1), (runStagesAux outcome caps rest).2)
      else ([s], false)
    else runStagesAux outcome caps rest

/-- Stage run of one node: its capability set against the fixed sequence. -/
def nodeRun (outcome : Identity → Stage → Bool) (n : GraphNode) : List Stage × Bool :=
  runStagesAux (outcome n.ident) n.defn.capabilities stageSequence

/-- Modelled from the spec: one step of the LifecycleExecutor (section 4.4),
which is not present under `src/`.  A node is dispatched only if all of its
dependencies report built; otherwise it is marked failed with no stage
invoked.  A dispatched node runs its implemented stages in the fixed sequence
and is marked built or failed according to the outcome. -/
def execNode (outcome : Identity → Stage → Bool) (g : ResolveState)
    (st : ExecState) (n : GraphNode) : ExecState :=
  if (depsOf g.edges n.ident).all (fun d => decide (statusOf st d = .builtStatus)) then
    { statuses := st.statuses ++
        [(n.ident, if (nodeRun outcome n).2 then .builtStatus else .failedStatus)],
      stageTrace := st.stageTrace ++ (nodeRun outcome n).1.map (fun s => (n.ident, s)) }
  else
    { statuses := st.statuses ++ [(n.ident, .failedStatus)],
      stageTrace := st.stageTrace }

/-- Modelled from the spec: `LifecycleExecutor.execute` (section 4.4), which is
not present under `src/`.  Nodes are visited in the resolver's topological
order. -/
def execute (outcome : Identity → Stage → Bool) (g : ResolveState) : ExecState :=
  g.nodes.foldl (execNode outcome g) {}

/-- Transitive dependency relation over the recorded graph edges. -/
inductive DependsOn (edges : List GraphEdge) : Identity → Identity → Prop where
  | single {a b : Identity} {k : ReqKind} :
      GraphEdge.mk a b k ∈ edges → DependsOn edges a b
  | cons {a b c : Identity} {k : ReqKind} :
      GraphEdge.mk a b k ∈ edges → DependsOn edges b c → DependsOn edges a c

/-- Well-formedness of a resolved graph, as established by the resolver: the
order is duplicate-free, nodes correspond to the order, and every edge's
dependency precedes its consumer. -/
def GraphWF (g : ResolveState) : Prop :=
  g.order.Nodup ∧ g.nodes.map GraphNode.ident = g.order ∧
  ∀ e ∈ g.edges, [e.dep, e.consumer].Sublist g.order

/-- A successfully resolved graph is well-formed. -/
theorem resolveGraph_wf {roots : List Identity} {reg : LocalRecipeRegistry}
    {ext : List RecipeDefinition} {userOpts : List (String × String × OptionValue)}
    {g : ResolveState} (h : resolveGraph roots reg ext userOpts = .ok g) : GraphWF g := by
  obtain ⟨hinv, hvis, -⟩ := resolveGraph_inv h
  refine ⟨hinv.nodupO, hinv.nodesOrder, ?_⟩
  intro e he
  rcases hinv.edgeCons e he with hc | hc
  · exact hinv.edgeTopo e he hc
  · rw [hvis] at hc
    cases hc

theorem dependsOn_pairSub {g : ResolveState} (hwf : GraphWF g) {a b : Identity}
    (h : DependsOn g.edges a b) : [b, a].Sublist g.order := by
  induction h with
  | single he => exact hwf.2.2 _ he
  | cons he _ ih => exact pairSub_trans hwf.1 ih (hwf.2.2 _ he)

theorem dependsOn_irrefl {g : ResolveState} (hwf : GraphWF g) {a : Identity}
    (h : DependsOn g.edges a a) : False := by
  have hs := dependsOn_pairSub hwf h
  have := hs.nodup hwf.1
  simp at this

theorem mem_depsOf {edges : List GraphEdge} {a b : Identity} {k : ReqKind}
    (h : GraphEdge.mk a b k ∈ edges) : b ∈ depsOf edges a := by
  unfold depsOf
  have hf : GraphEdge.mk a b k ∈ edges.filter (fun e => decide (e.consumer = a)) :=
    List.mem_filter.mpr ⟨h, by simp⟩
  exact List.mem_map_of_mem GraphEdge.dep hf

theorem depsOf_mem_edge {edges : List GraphEdge} {a d : Identity}
    (h : d ∈ depsOf edges a) : ∃ e ∈ edges, e.consumer = a ∧ e.dep = d := by
  unfold depsOf at h
  obtain ⟨e, he, hd⟩ := List.mem_map.mp h
  have := List.mem_filter.mp he
  simp only [decide_eq_true_eq] at this
  exact ⟨e, this.1, this.2, hd⟩

theorem pairSub_before_split {α : Type} {d w : α} {l1 l2 : List α}
    (hnd : (l1 ++ w :: l2).Nodup) (h : [d, w].Sublist (l1 ++ w :: l2)) : d ∈ l1 := by
  obtain ⟨-, hnd2, hdisj⟩ := List.nodup_append.mp hnd
  have hw1 : w ∉ l1 := fun hc => hdisj hc (List.mem_cons_self w l2)
  have hw2 : w ∉ l2 := (List.nodup_cons.mp hnd2).1
  rcases pairSub_append_cases h with h1 | h2 | h3
  · exact pairSub_mem_left h1
  · exfalso
    cases h2 with
    | cons _ h' => exact hw2 (pairSub_mem_right h')
    | cons₂ _ h' => exact hw2 (List.singleton_sublist.mp h')
  · exact h3.1

theorem statusIn_append_left {l1 l2 : List (Identity × BuildStatus)} {v : Identity}
    (h : v ∈ l1.map Prod.fst) : statusIn (l1 ++ l2) v = statusIn l1 v := by
  induction l1 with
  | nil => simp at h
  | cons p t ih =>
    by_cases hp : p.1 = v
    · simp [statusIn, List.find?_cons, hp]
    · have h' : v ∈ t.map Prod.fst := by
        rw [List.map_cons, List.mem_cons] at h
        rcases h with h1 | h1
        · exact absurd h1.symm hp
        · exact h1
      simp only [statusIn, List.cons_append, List.find?_cons]
      rw [show (decide (p.1 = v)) = false by simp [hp]]
      exact ih h'

theorem statusIn_append_right {l1 l2 : List (Identity × BuildStatus)} {v : Identity}
    (h : v ∉ l1.map Prod.fst) : statusIn (l1 ++ l2) v = statusIn l2 v := by
  induction l1 with
  | nil => rfl
  | cons p t ih =>
    have hp : p.1 ≠ v := fun hc => h (by simp [← hc])
    have h' : v ∉ t.map Prod.fst := fun hc => h (by simp [hc])
    simp only [statusIn, List.cons_append, List.find?_cons]
    rw [show (decide (p.1 = v)) = false by simp [hp]]
    exact ih h'

theorem statusIn_singleton (v : Identity) (s : BuildStatus) :
    statusIn [(v, s)] v = s := by
  simp [statusIn, List.find?_cons]

theorem statusIn_singleton_ne {v w : Identity} (s : BuildStatus) (h : w ≠ v) :
    statusIn [(w, s)] v = .unresolvedStatus := by
  simp [statusIn, List.find?_cons, h]

theorem statusIn_not_mem {l : List (Identity × BuildStatus)} {v : Identity}
    (h : v ∉ l.map Prod.fst) : statusIn l v = .unresolvedStatus := by
  have := @statusIn_append_right l [] v h
  simpa using this

theorem tagged_filter_ne {v w : Identity} (hne : v ≠ w) (l : List Stage) :
    (l.map (fun s => (w, s))).filter (fun p => decide (p.1 = v)) = [] := by
  induction l with
  | nil => rfl
  | cons s t ih =>
    simp only [List.map_cons, List.filter_cons]
    rw [show (decide ((w, s).1 = v)) = false by simp [Ne.symm hne]]
    exact ih

theorem tagged_filter_eq (w : Identity) (l : List Stage) :
    ((l.map (fun s => (w, s))).filter (fun p => decide (p.1 = w))).map Prod.snd = l := by
  induction l with
  | nil => rfl
  | cons s t ih =>
    simp [List.filter_cons, ih]

theorem runStagesAux_success (o : Stage → Bool) (caps : List Stage) :
    ∀ l, (∀ s ∈ l, o s = true) →
      runStagesAux o caps l = (l.filter (fun s => decide (s ∈ caps)), true) := by
  intro l
  induction l with
  | nil => intro _; rfl
  | cons s rest ih =>
    intro h
    have hs := h s (List.mem_cons_self s rest)
    have hrest := ih (fun x hx => h x (List.mem_cons_of_mem s hx))
    by_cases hc : s ∈ caps
    · simp [runStagesAux, hc, hs, hrest, List.filter_cons]
    · simp [runStagesAux, hc, hrest, List.filter_cons]

theorem runStagesAux_take (o : Stage → Bool) (caps : List Stage) :
    ∀ l, ∃ k, (runStagesAux o caps l).1 = (l.filter (fun s => decide (s ∈ caps))).take k := by
  intro l
  induction l with
  | nil => exact ⟨0, rfl⟩
  | cons s rest ih =>
    by_cases hc : s ∈ caps
    · by_cases ho : o s = true
      · obtain ⟨k, hk⟩ := ih
        refine ⟨k + 1, ?_⟩
        simp [runStagesAux, hc, ho, List.filter_cons, List.take_succ_cons, hk]
      · refine ⟨1, ?_⟩
        simp [runStagesAux, hc, ho, List.filter_cons]
    · obtain ⟨k, hk⟩ := ih
      refine ⟨k, ?_⟩
      simp [runStagesAux, hc, List.filter_cons, hk]

/-- Invariant of the executor fold: statuses cover exactly the processed
prefix, unprocessed nodes are untouched, and every processed node was either
dispatched after all its dependencies were built, or blocked with no stage
invoked. -/
def ExecInv (outcome : Identity → Stage → Bool) (g : ResolveState)
    (pre : List GraphNode) (st : ExecState) : Prop :=
  st.statuses.map Prod.fst = pre.map GraphNode.ident ∧
  (∀ v, v ∉ pre.map GraphNode.ident →
    statusOf st v = .unresolvedStatus ∧ traceOf st v = []) ∧
  ∀ n ∈ pre,
    ((∀ d ∈ depsOf g.edges n.ident, statusOf st d = .builtStatus) →
      statusOf st n.ident =
        (if (nodeRun outcome n).2 then .builtStatus else .failedStatus) ∧
      traceOf st n.ident = (nodeRun outcome n).1) ∧
    ((∃ d ∈ depsOf g.edges n.ident, statusOf st d ≠ .builtStatus) →
      statusOf st n.ident = .failedStatus ∧ traceOf st n.ident = [])

theorem execNode_step (outcome : Identity → Stage → Bool) {g : ResolveState}
    (hwf : GraphWF g) {pre suf : List GraphNode} {n0 : GraphNode} {st : ExecState}
    (hsplit : g.nodes = pre ++ n0 :: suf) (hinv : ExecInv outcome g pre st) :
    ExecInv outcome g (pre ++ [n0]) (execNode outcome g st n0) := by
  obtain ⟨hkeys, hfresh, hproc⟩ := hinv
  have horder : g.order = pre.map GraphNode.ident ++ n0.ident :: suf.map GraphNode.ident := by
    rw [← hwf.2.1, hsplit]
    simp
  have hndO : (pre.map GraphNode.ident ++ n0.ident :: suf.map GraphNode.ident).Nodup := by
    rw [← horder]
    exact hwf.1
  have hn0pre : n0.ident ∉ pre.map GraphNode.ident := by
    obtain ⟨-, -, hdisj⟩ := List.nodup_append.mp hndO
    exact fun hc => hdisj hc (List.mem_cons_self _ _)
  have hdep_n0 : ∀ d ∈ depsOf g.edges n0.ident, d ∈ pre.map GraphNode.ident := by
    intro d hd
    obtain ⟨e, he, hcons, hdep⟩ := depsOf_mem_edge hd
    have hsub := hwf.2.2 e he
    rw [hcons, hdep] at hsub
    rw [horder] at hsub
    exact pairSub_before_split hndO hsub
  have hdep_pre : ∀ n ∈ pre, ∀ d ∈ depsOf g.edges n.ident, d ∈ pre.map GraphNode.ident := by
    intro n hn d hd
    obtain ⟨e, he, hcons, hdep⟩ := depsOf_mem_edge hd
    have hsub := hwf.2.2 e he
    rw [hcons, hdep] at hsub
    rw [horder] at hsub
    have hnmem : n.ident ∈ pre.map GraphNode.ident := List.mem_map_of_mem _ hn
    exact pairSub_mem_left (pairSub_restrict hndO hsub hnmem)
  by_cases hdisp :
      (depsOf g.edges n0.ident).all (fun d => decide (statusOf st d = .builtStatus)) = true
  · have hST : execNode outcome g st n0 =
        { statuses := st.statuses ++ [(n0.ident,
            if (nodeRun outcome n0).2 then .builtStatus else .failedStatus)],
          stageTrace := st.stageTrace ++
            (nodeRun outcome n0).1.map (fun s => (n0.ident, s)) } := by
      simp [execNode, hdisp]
    rw [hST]
    have hstable : ∀ w ∈ pre.map GraphNode.ident,
        statusIn (st.statuses ++ [(n0.ident,
          if (nodeRun outcome n0).2 then .builtStatus else .failedStatus)]) w =
        statusOf st w := by
      intro w hw
      exact statusIn_append_left (by rw [hkeys]; exact hw)
    have htstable : ∀ w, w ≠ n0.ident →
        ((st.stageTrace ++ (nodeRun outcome n0).1.map (fun s => (n0.ident, s))).filter
          (fun p => decide (p.1 = w))).map Prod.snd = traceOf st w := by
      intro w hw
      rw [List.filter_append, tagged_filter_ne hw]
      simp [traceOf]
    refine ⟨by simp [hkeys], ?_, ?_⟩
    · intro v hv
      have hvpre : v ∉ pre.map GraphNode.ident := fun hc => hv (by simp [hc])
      have hvne : v ≠ n0.ident := fun hc => hv (by simp [hc])
      obtain ⟨hs0, ht0⟩ := hfresh v hvpre
      constructor
      · show statusIn _ v = .unresolvedStatus
        rw [statusIn_append_right (by rw [hkeys]; exact hvpre)]
        exact statusIn_singleton_ne _ (Ne.symm hvne)
      · show (List.filter _ _).map Prod.snd = []
        rw [htstable v hvne]
        exact ht0
    · intro n hn
      rcases List.mem_append.mp hn with hn | hn
      · have hnident : n.ident ∈ pre.map GraphNode.ident := List.mem_map_of_mem _ hn
        have hnne : n.ident ≠ n0.ident := fun hc => hn0pre (hc ▸ hnident)
        obtain ⟨hc1, hc2⟩ := hproc n hn
        constructor
        · intro hall
          have hall' : ∀ d ∈ depsOf g.edges n.ident, statusOf st d = .builtStatus := by
            intro d hd
            exact (hstable d (hdep_pre n hn d hd)).symm.trans (hall d hd)
          obtain ⟨hs, ht⟩ := hc1 hall'
          exact ⟨(hstable n.ident hnident).trans hs, (htstable n.ident hnne).trans ht⟩
        · intro hex
          obtain ⟨d, hd, hdne⟩ := hex
          have hex' : ∃ d ∈ depsOf g.edges n.ident, statusOf st d ≠ .builtStatus := by
            refine ⟨d, hd, fun hcc => hdne ?_⟩
            exact (hstable d (hdep_pre n hn d hd)).trans hcc
          obtain ⟨hs, ht⟩ := hc2 hex'
          exact ⟨(hstable n.ident hnident).trans hs, (htstable n.ident hnne).trans ht⟩
      · rw [List.mem_singleton] at hn
        subst hn
        have hs0 : statusIn (st.statuses ++ [(n.ident,
            if (nodeRun outcome n).2 then .builtStatus else .failedStatus)]) n.ident =
            (if (nodeRun outcome n).2 then .builtStatus else .failedStatus) := by
          rw [statusIn_append_right (by rw [hkeys]; exact hn0pre)]
          exact statusIn_singleton _ _
        have ht0 : ((st.stageTrace ++ (nodeRun outcome n).1.map
            (fun s => (n.ident, s))).filter
              (fun p => decide (p.1 = n.ident))).map Prod.snd =
            (nodeRun outcome n).1 := by
          rw [List.filter_append, List.map_append]
          have h1 : (st.stageTrace.filter
              (fun p => decide (p.1 = n.ident))).map Prod.snd = [] :=
            (hfresh n.ident hn0pre).2
          rw [h1, List.nil_append, tagged_filter_eq]
        constructor
        · intro _
          exact ⟨hs0, ht0⟩
        · intro hex
          obtain ⟨d, hd, hdne⟩ := hex
          exfalso
          apply hdne
          exact (hstable d (hdep_n0 d hd)).trans
            (by simpa using List.all_eq_true.mp hdisp d hd)
  · have hdisp' :
        (depsOf g.edges n0.ident).all
          (fun d => decide (statusOf st d = .builtStatus)) = false := by
      rw [← Bool.not_eq_true]
      exact hdisp
    have hST : execNode outcome g st n0 =
        { statuses := st.statuses ++ [(n0.ident, .failedStatus)],
          stageTrace := st.stageTrace } := by
      simp [execNode, hdisp']
    rw [hST]
    have hstable : ∀ w ∈ pre.map GraphNode.ident,
        statusIn (st.statuses ++ [(n0.ident, .failedStatus)]) w = statusOf st w := by
      intro w hw
      exact statusIn_append_left (by rw [hkeys]; exact hw)
    have hexbad : ∃ d ∈ depsOf g.edges n0.ident, statusOf st d ≠ .builtStatus := by
      obtain ⟨d, hd, hne⟩ := List.all_eq_false.mp hdisp'
      exact ⟨d, hd, by simpa using hne⟩
    refine ⟨by simp [hkeys], ?_, ?_⟩
    · intro v hv
      have hvpre : v ∉ pre.map GraphNode.ident := fun hc => hv (by simp [hc])
      have hvne : v ≠ n0.ident := fun hc => hv (by simp [hc])
      obtain ⟨hs0v, ht0v⟩ := hfresh v hvpre
      constructor
      · show statusIn _ v = .unresolvedStatus
        rw [statusIn_append_right (by rw [hkeys]; exact hvpre)]
        exact statusIn_singleton_ne _ (Ne.symm hvne)
      · exact ht0v
    · intro n hn
      rcases List.mem_append.mp hn with hn | hn
      · have hnident : n.ident ∈ pre.map GraphNode.ident := List.mem_map_of_mem _ hn
        obtain ⟨hc1, hc2⟩ := hproc n hn
        constructor
        · intro hall
          have hall' : ∀ d ∈ depsOf g.edges n.ident, statusOf st d = .builtStatus := by
            intro d hd
            exact (hstable d (hdep_pre n hn d hd)).symm.trans (hall d hd)
          obtain ⟨hs, ht⟩ := hc1 hall'
          exact ⟨(hstable n.ident hnident).trans hs, ht⟩
        · intro hex
          obtain ⟨d, hd, hdne⟩ := hex
          have hex' : ∃ d ∈ depsOf g.edges n.ident, statusOf st d ≠ .builtStatus := by
            refine ⟨d, hd, fun hcc => hdne ?_⟩
            exact (hstable d (hdep_pre n hn d hd)).trans hcc
          obtain ⟨hs, ht⟩ := hc2 hex'
          exact ⟨(hstable n.ident hnident).trans hs, ht⟩
      · rw [List.mem_singleton] at hn
        subst hn
        constructor
        · intro hall
          exfalso
          obtain ⟨d, hd, hdne⟩ := hexbad
          apply hdne
          exact (hstable d (hdep_n0 d hd)).symm.trans (hall d hd)
        · intro _
          refine ⟨?_, (hfresh n.ident hn0pre).2⟩
          exact (statusIn_append_right (by rw [hkeys]; exact hn0pre)).trans
            (statusIn_singleton _ _)

theorem exec_fold (outcome : Identity → Stage → Bool) {g : ResolveState}
    (hwf : GraphWF g) :
    ∀ suf pre st, g.nodes = pre ++ suf → ExecInv outcome g pre st →
      ExecInv outcome g (pre ++ suf) (List.foldl (execNode outcome g) st suf) := by
  intro suf
  induction suf with
  | nil =>
    intro pre st h hinv
    simpa using hinv
  | cons n0 suf ih =>
    intro pre st hsplit hinv
    have hstep := execNode_step outcome hwf hsplit hinv
    have hres := ih (pre ++ [n0]) (execNode outcome g st n0) (by rw [hsplit]; simp) hstep
    rw [show (pre ++ [n0]) ++ suf = pre ++ n0 :: suf by simp] at hres
    exact hres

theorem exec_inv (outcome : Identity → Stage → Bool) {g : ResolveState} (hwf : GraphWF g) :
    ExecInv outcome g g.nodes (execute outcome g) := by
  have h0 : ExecInv outcome g [] {} := by
    refine ⟨rfl, ?_, ?_⟩
    · intro v _
      exact ⟨rfl, rfl⟩
    · intro n hn
      cases hn
  have := exec_fold outcome hwf g.nodes [] {} (by simp) h0
  simpa [execute] using this

theorem pairSub_indexOf {α : Type} [DecidableEq α] {x y : α} {l : List α}
    (hnd : l.Nodup) (h : [x, y].Sublist l) : l.indexOf x < l.indexOf y := by
  induction l with
  | nil => cases h
  | cons a t ih =>
    have hna : a ∉ t := (List.nodup_cons.mp hnd).1
    cases h with
    | cons _ h' =>
      have hx : x ∈ t := pairSub_mem_left h'
      have hy : y ∈ t := pairSub_mem_right h'
      have hax : a ≠ x := fun hc => hna (hc ▸ hx)
      have hay : a ≠ y := fun hc => hna (hc ▸ hy)
      rw [List.indexOf_cons_ne t hax, List.indexOf_cons_ne t hay]
      exact Nat.succ_lt_succ (ih hnd.of_cons h')
    | cons₂ _ h' =>
      have hy : y ∈ t := List.singleton_sublist.mp h'
      have hay : x ≠ y := fun hc => hna (hc ▸ hy)
      rw [List.indexOf_cons_self, List.indexOf_cons_ne t hay]
      exact Nat.succ_pos _

theorem dependsOn_inv {edges : List GraphEdge} {a c : Identity}
    (h : DependsOn edges a c) :
    ∃ b k, GraphEdge.mk a b k ∈ edges ∧ (b = c ∨ DependsOn edges b c) := by
  cases h with
  | single he => exact ⟨_, _, he, Or.inl rfl⟩
  | cons he hd => exact ⟨_, _, he, Or.inr hd⟩

theorem node_eq_of_ident {l : List GraphNode} {a b : GraphNode}
    (hnd : (l.map GraphNode.ident).Nodup) (h1 : a ∈ l) (h2 : b ∈ l)
    (he : a.ident = b.ident) : a = b := by
  induction l with
  | nil => cases h1
  | cons n t ih =>
    have hnt : n.ident ∉ t.map GraphNode.ident := by
      rw [List.map_cons] at hnd
      exact (List.nodup_cons.mp hnd).1
    rcases List.mem_cons.mp h1 with rfl | h1'
    · rcases List.mem_cons.mp h2 with rfl | h2'
      · rfl
      · exact absurd (he ▸ List.mem_map_of_mem GraphNode.ident h2') hnt
    · rcases List.mem_cons.mp h2 with rfl | h2'
      · exact absurd (he ▸ List.mem_map_of_mem GraphNode.ident h1') hnt
      · refine ih ?_ h1' h2'
        rw [List.map_cons] at hnd
        exact hnd.of_cons

theorem stage_mem_traceOf {st : ExecState} {v : Identity} {s : Stage}
    (h : (v, s) ∈ st.stageTrace) : s ∈ traceOf st v := by
  unfold traceOf
  exact List.mem_map_of_mem Prod.snd (List.mem_filter.mpr ⟨h, by simp⟩)

/-- Claim C8: the executor runs a node only after all its runtime and tool
dependencies report built; per node the lifecycle stages run strictly in the
fixed sequence; an unimplemented stage is a no-op and, when the node is
dispatched and all its stage invocations succeed, exactly the implemented
stages run, in order. -/
theorem lifecycle_stage_order (outcome : Identity → Stage → Bool) (g : ResolveState)
    (hwf : GraphWF g) :
    (∀ v s, (v, s) ∈ (execute outcome g).stageTrace →
      ∀ d ∈ depsOf g.edges v, statusOf (execute outcome g) d = .builtStatus) ∧
    (∀ n ∈ g.nodes, ∃ k, traceOf (execute outcome g) n.ident =
      (stageSequence.filter (fun s => decide (s ∈ n.defn.capabilities))).take k) ∧
    (∀ n ∈ g.nodes,
      (∀ d ∈ depsOf g.edges n.ident, statusOf (execute outcome g) d = .builtStatus) →
      (∀ s, outcome n.ident s = true) →
      traceOf (execute outcome g) n.ident =
        stageSequence.filter (fun s => decide (s ∈ n.defn.capabilities))) := by
  obtain ⟨hkeys, hfresh, hproc⟩ := exec_inv outcome hwf
  refine ⟨?_, ?_, ?_⟩
  · intro v s hvs d hd
    have hs : s ∈ traceOf (execute outcome g) v := stage_mem_traceOf hvs
    have hne : traceOf (execute outcome g) v ≠ [] := fun hc => by
      rw [hc] at hs
      cases hs
    by_cases hvmem : v ∈ g.nodes.map GraphNode.ident
    · obtain ⟨n, hn, rfl⟩ := List.mem_map.mp hvmem
      by_contra hdne
      exact hne ((hproc n hn).2 ⟨d, hd, hdne⟩).2
    · exact absurd (hfresh v hvmem).2 hne
  · intro n hn
    by_cases hall : ∀ d ∈ depsOf g.edges n.ident, statusOf (execute outcome g) d = .builtStatus
    · obtain ⟨-, ht⟩ := (hproc n hn).1 hall
      obtain ⟨k, hk⟩ := runStagesAux_take (outcome n.ident) n.defn.capabilities stageSequence
      exact ⟨k, ht.trans hk⟩
    · push_neg at hall
      obtain ⟨-, ht⟩ := (hproc n hn).2 hall
      exact ⟨0, by rw [ht]; rfl⟩
  · intro n hn hall hout
    obtain ⟨-, ht⟩ := (hproc n hn).1 hall
    rw [ht]
    show (runStagesAux (outcome n.ident) n.defn.capabilities stageSequence).1 = _
    rw [runStagesAux_success (outcome n.ident) n.defn.capabilities stageSequence
      (fun s _ => hout s)]

theorem depsOf_mem_edge' {edges : List GraphEdge} {a d : Identity}
    (h : d ∈ depsOf edges a) : ∃ k, GraphEdge.mk a d k ∈ edges := by
  obtain ⟨e, he, hcons, hdep⟩ := depsOf_mem_edge h
  cases e with
  | mk c dp kk =>
    have hc : c = a := hcons
    have hd : dp = d := hdep
    subst hc
    subst hd
    exact ⟨kk, he⟩

/-- Claim C5: when a node fails in any lifecycle stage, the executor marks it
failed and, transitively, every node that depends on it is reported failed
without its build stage ever being invoked, while every node that does not
depend on it is unaffected and reported built. -/
theorem failure_propagation (outcome : Identity → Stage → Bool) (g : ResolveState)
    (hwf : GraphWF g) (nN : GraphNode) (hN : nN ∈ g.nodes)
    (hfail : (nodeRun outcome nN).2 = false)
    (hothers : ∀ v s, v ≠ nN.ident → outcome v s = true) :
    statusOf (execute outcome g) nN.ident = .failedStatus ∧
    (∀ n ∈ g.nodes, DependsOn g.edges n.ident nN.ident →
      statusOf (execute outcome g) n.ident = .failedStatus ∧
      (n.ident, Stage.buildStage) ∉ (execute outcome g).stageTrace) ∧
    (∀ n ∈ g.nodes, n.ident ≠ nN.ident → ¬ DependsOn g.edges n.ident nN.ident →
      statusOf (execute outcome g) n.ident = .builtStatus) := by
  obtain ⟨hkeys, hfresh, hproc⟩ := exec_inv outcome hwf
  have hndmap : (g.nodes.map GraphNode.ident).Nodup := by
    rw [hwf.2.1]
    exact hwf.1
  have hnode_of : ∀ {a d : Identity}, d ∈ depsOf g.edges a →
      ∃ nd ∈ g.nodes, nd.ident = d := by
    intro a d hd
    obtain ⟨e, he, hcons, hdep⟩ := depsOf_mem_edge hd
    have hsub := hwf.2.2 e he
    have hdo : d ∈ g.order := hdep ▸ pairSub_mem_left hsub
    rw [← hwf.2.1] at hdo
    obtain ⟨nd, hnd, hnd'⟩ := List.mem_map.mp hdo
    exact ⟨nd, hnd, hnd'⟩
  have hdeplt : ∀ n ∈ g.nodes, ∀ d ∈ depsOf g.edges n.ident,
      g.order.indexOf d < g.order.indexOf n.ident := by
    intro n _ d hd
    obtain ⟨e, he, hcons, hdep⟩ := depsOf_mem_edge hd
    have hsub := hwf.2.2 e he
    rw [hcons, hdep] at hsub
    exact pairSub_indexOf hwf.1 hsub
  have main : ∀ k, ∀ n ∈ g.nodes, g.order.indexOf n.ident = k →
      ((n.ident = nN.ident ∨ DependsOn g.edges n.ident nN.ident →
        statusOf (execute outcome g) n.ident = .failedStatus) ∧
       (n.ident ≠ nN.ident → ¬ DependsOn g.edges n.ident nN.ident →
        statusOf (execute outcome g) n.ident = .builtStatus) ∧
       (DependsOn g.edges n.ident nN.ident →
        traceOf (execute outcome g) n.ident = [])) := by
    intro k
    induction k using Nat.strong_induction_on with
    | _ k ih =>
      intro n hn hk
      by_cases h1 : n.ident = nN.ident
      · have hnN : n = nN := node_eq_of_ident hndmap hn hN h1
        have hall : ∀ d ∈ depsOf g.edges n.ident,
            statusOf (execute outcome g) d = .builtStatus := by
          intro d hd
          obtain ⟨nd, hnd, rfl⟩ := hnode_of hd
          obtain ⟨k0, hedge⟩ := depsOf_mem_edge' hd
          have hlt := hdeplt n hn nd.ident hd
          have hdne : nd.ident ≠ nN.ident := by
            intro hc
            rw [← h1] at hc
            rw [hc] at hlt
            exact Nat.lt_irrefl _ hlt
          have hdnd : ¬ DependsOn g.edges nd.ident nN.ident := by
            intro hc
            rw [← h1] at hc
            exact dependsOn_irrefl hwf (DependsOn.cons hedge hc)
          exact (ih _ (hk ▸ hlt) nd hnd rfl).2.1 hdne hdnd
        obtain ⟨hs, -⟩ := (hproc n hn).1 hall
        have hfail' : (nodeRun outcome n).2 = false := by
          rw [hnN]
          exact hfail
        rw [hfail'] at hs
        simp at hs
        refine ⟨fun _ => hs, fun hne _ => absurd h1 hne, ?_⟩
        intro hdep
        rw [← h1] at hdep
        exact absurd hdep (fun hc => dependsOn_irrefl hwf hc)
      · by_cases h2 : DependsOn g.edges n.ident nN.ident
        · obtain ⟨b, k0, hedge, hb⟩ := dependsOn_inv h2
          have hbdep : b ∈ depsOf g.edges n.ident := mem_depsOf hedge
          obtain ⟨nb, hnb, rfl⟩ := hnode_of hbdep
          have hlt := hdeplt n hn nb.ident hbdep
          have hbfail : statusOf (execute outcome g) nb.ident = .failedStatus :=
            (ih _ (hk ▸ hlt) nb hnb rfl).1 hb
          have hex : ∃ d ∈ depsOf g.edges n.ident,
              statusOf (execute outcome g) d ≠ .builtStatus :=
            ⟨nb.ident, hbdep, by simp [hbfail]⟩
          obtain ⟨hs, ht⟩ := (hproc n hn).2 hex
          exact ⟨fun _ => hs, fun _ hnd => absurd h2 hnd, fun _ => ht⟩
        · have hall : ∀ d ∈ depsOf g.edges n.ident,
              statusOf (execute outcome g) d = .builtStatus := by
            intro d hd
            obtain ⟨nd, hnd, rfl⟩ := hnode_of hd
            obtain ⟨k0, hedge⟩ := depsOf_mem_edge' hd
            have hdne : nd.ident ≠ nN.ident := by
              intro hc
              exact h2 (DependsOn.single (hc ▸ hedge))
            have hdnd : ¬ DependsOn g.edges nd.ident nN.ident := by
              intro hc
              exact h2 (DependsOn.cons hedge hc)
            have hlt := hdeplt n hn nd.ident hd
            exact (ih _ (hk ▸ hlt) nd hnd rfl).2.1 hdne hdnd
          obtain ⟨hs, -⟩ := (hproc n hn).1 hall
          have hrun : (nodeRun outcome n).2 = true := by
            show (runStagesAux (outcome n.ident) n.defn.capabilities stageSequence).2 = true
            rw [runStagesAux_success (outcome n.ident) n.defn.capabilities stageSequence
              (fun s _ => hothers n.ident s h1)]
          rw [hrun] at hs
          simp at hs
          refine ⟨?_, fun _ _ => hs, fun hc => absurd hc h2⟩
          intro hor
          rcases hor with hc | hc
          · exact absurd hc h1
          · exact absurd hc h2
  refine ⟨(main _ nN hN rfl).1 (Or.inl rfl), ?_, ?_⟩
  · intro n hn hdep
    obtain ⟨hg1, -, hg3⟩ := main _ n hn rfl
    refine ⟨hg1 (Or.inr hdep), ?_⟩
    intro hc
    have hmem := stage_mem_traceOf hc
    rw [hg3 hdep] at hmem
    cases hmem
  · intro n hn hne hnd
    exact (main _ n hn rfl).2.1 hne hnd

def sBId : Identity := mkId "nodeB" "1.0"

def sCId : Identity := mkId "nodeC" "1.0"

def sDId : Identity := mkId "nodeD" "1.0"

def sBRec : RecipeDefinition :=
  { identity := sBId, capabilities := [.sourceStage, .buildStage, .packageStage] }

def sCRec : RecipeDefinition := { identity := sCId, capabilities := [.buildStage] }

def sDRec : RecipeDefinition :=
  { identity := sDId, requirements := [rt sBId],
    capabilities := [.configureStage, .buildStage] }

def sExt : List RecipeDefinition := [sBRec, sCRec, sDRec]

def sGraph : ResolveState := getOk (resolveGraph [sBId, sCId, sDId] ⟨[]⟩ sExt [])

/-- Oracle under which only node B's build stage fails. -/
def failBOutcome : Identity → Stage → Bool :=
  fun v s => decide (¬ (v = sBId ∧ s = Stage.buildStage))

theorem failure_propagation_witness :
    statusOf (execute failBOutcome sGraph) sBId = .failedStatus ∧
    statusOf (execute failBOutcome sGraph) sDId = .failedStatus ∧
    (sDId, Stage.buildStage) ∉ (execute failBOutcome sGraph).stageTrace ∧
    statusOf (execute failBOutcome sGraph) sCId = .builtStatus := by
  have h := failure_propagation failBOutcome sGraph
    (resolveGraph_wf (show resolveGraph [sBId, sCId, sDId] ⟨[]⟩ sExt [] = .ok sGraph from rfl))
    ⟨sBId, sBRec⟩ (by decide) (by decide)
    (fun v s hv => decide_eq_true (fun hc => hv hc.1))
  refine ⟨h.1, ?_, ?_, ?_⟩
  · exact (h.2.1 ⟨sDId, sDRec⟩ (by decide)
      (@DependsOn.single sGraph.edges sDId sBId ReqKind.runtime (by decide))).1
  · exact (h.2.1 ⟨sDId, sDRec⟩ (by decide)
      (@DependsOn.single sGraph.edges sDId sBId ReqKind.runtime (by decide))).2
  · refine h.2.2 ⟨sCId, sCRec⟩ (by decide) (by decide) ?_
    intro hdep
    obtain ⟨b, k, hedge, -⟩ := dependsOn_inv hdep
    have hedges : sGraph.edges = [GraphEdge.mk sDId sBId .runtime] := by decide
    rw [hedges, List.mem_singleton] at hedge
    have hcd : sCId = sDId := congrArg GraphEdge.consumer hedge
    exact absurd hcd (by decide)

/-- Oracle under which every stage invocation succeeds. -/
def allTrueOutcome : Identity → Stage → Bool := fun _ _ => true

theorem lifecycle_stage_order_witness :
    traceOf (execute allTrueOutcome sGraph) sDId =
      [Stage.configureStage, Stage.buildStage] := by
  have h := lifecycle_stage_order allTrueOutcome sGraph
    (resolveGraph_wf (show resolveGraph [sBId, sCId, sDId] ⟨[]⟩ sExt [] = .ok sGraph from rfl))
  have h3 := h.2.2 ⟨sDId, sDRec⟩ (by decide) (by decide) (fun s => rfl)
  rw [h3]
  decide

def toolXId : Identity := ⟨"toolX", "1.0", some "user", some "stable"⟩

def toolXRec : RecipeDefinition := leafRecipe toolXId []

def rootBId : Identity := mkId "rootB" "1.0"

def rootBRec : RecipeDefinition := { identity := rootBId, requirements := [rt toolXId] }

/-- Extract the registry of a successful registration (empty on error). -/
def getOkReg (x : Except ResolveError LocalRecipeRegistry) : LocalRecipeRegistry :=
  match x with
  | .ok r => r
  | .error _ => ⟨[]⟩

/-- Registry produced by the export-local step for toolX. -/
def toolReg : LocalRecipeRegistry := getOkReg (LocalRecipeRegistry.register ⟨[]⟩ toolXRec)

/-- Claim C6: a recipe registered in the local registry resolves by identity
for the remainder of the run without consulting the external index (the
lookup result is independent of the external index), and omitting the export
step makes a requirement on that identity fail with a missing-recipe error. -/
theorem local_registry_resolution :
    (∀ (reg reg' : LocalRecipeRegistry) (d : RecipeDefinition),
      LocalRecipeRegistry.register reg d = .ok reg' →
      ∀ ext ext' : List RecipeDefinition,
        lookupRecipe reg' ext d.identity = some d ∧
        lookupRecipe reg' ext d.identity = lookupRecipe reg' ext' d.identity) ∧
    (resolveGraph [rootBId] toolReg [rootBRec] []).isOk = true ∧
    resolveGraph [rootBId] ⟨[]⟩ [rootBRec] [] = .error (.missingRecipe toolXId) := by
  refine ⟨?_, by decide, by rfl⟩
  intro reg reg' d h ext ext'
  unfold LocalRecipeRegistry.register at h
  split at h
  · simp at h
  · rename_i hany
    injection h with h'
    subst h'
    have hany' : reg.entries.any (fun e => decide (e.identity = d.identity)) = false := by
      rw [← Bool.not_eq_true]
      exact hany
    have hnone : reg.entries.find? (fun r => decide (r.identity = d.identity)) = none := by
      rw [List.find?_eq_none]
      intro x hx
      have := List.any_eq_false.mp hany' x hx
      simpa using this
    have hfind : (reg.entries ++ [d]).find?
        (fun r => decide (r.identity = d.identity)) = some d := by
      rw [List.find?_append, hnone]
      simp [List.find?_cons]
    constructor
    · unfold lookupRecipe
      rw [show (LocalRecipeRegistry.mk (reg.entries ++ [d])).entries = reg.entries ++ [d]
        from rfl, hfind]
    · unfold lookupRecipe
      rw [show (LocalRecipeRegistry.mk (reg.entries ++ [d])).entries = reg.entries ++ [d]
        from rfl, hfind]

theorem local_registry_resolution_witness :
    lookupRecipe ⟨[toolXRec]⟩ [] toolXId = some toolXRec := by
  have h := local_registry_resolution.1 ⟨[]⟩ ⟨[toolXRec]⟩ toolXRec rfl [] []
  exact h.1

/-- Claim C9: an identity declared by one consumer both as a runtime
requirement and as a tool requirement — as AosCommonCpp does for gtest/1.14.0
and grpc/1.54.3 — resolves to exactly one graph node; the two edge kinds are
recorded on the edges instead of duplicating the node. -/
theorem dual_kind_single_node :
    (aosGraph.nodes.filter (fun n => decide (n.ident = gtestId))).length = 1 ∧
    (aosGraph.nodes.filter (fun n => decide (n.ident = grpcId))).length = 1 ∧
    GraphEdge.mk aosId gtestId .runtime ∈ aosGraph.edges ∧
    GraphEdge.mk aosId gtestId .tool ∈ aosGraph.edges ∧
    GraphEdge.mk aosId grpcId .runtime ∈ aosGraph.edges ∧
    GraphEdge.mk aosId grpcId .tool ∈ aosGraph.edges := by
  decide

/-! ## Cycle detection -/

theorem runResolve_no_dup (idx : Identity → Option RecipeDefinition) :
    ∀ fuel task st d, runResolve idx fuel task st ≠ .error (.duplicateRecipe d) := by
  intro fuel
  induction fuel with
  | zero =>
    intro task st d h
    simp only [runResolve] at h
    injection h with h'
    cases h'
  | succ n ih =>
    intro task st d h
    cases task with
    | node v =>
      simp only [runResolve] at h
      split at h
      · cases h
      · split at h
        · injection h with h'
          cases h'
        · split at h
          · injection h with h'
            cases h'
          · split at h
            · cases h
            · rename_i e hsub
              injection h with h'
              subst h'
              exact ih _ _ _ hsub
    | reqsOf v reqs =>
      cases reqs with
      | nil =>
        simp only [runResolve] at h
        cases h
      | cons req rest =>
        simp only [runResolve] at h
        split at h
        · rename_i st2 hsub
          exact ih _ _ _ h
        · rename_i e hsub
          injection h with h'
          subst h'
          exact ih _ _ _ hsub

theorem runResolve_missing (idx : Identity → Option RecipeDefinition) :
    ∀ fuel task st w, runResolve idx fuel task st = .error (.missingRecipe w) →
      idx w = none ∧
      (match task with
       | .node v => Reaches idx v w
       | .reqsOf v reqs => (∀ req ∈ reqs, Requires idx v req.dep) → Reaches idx v w) := by
  intro fuel
  induction fuel with
  | zero =>
    intro task st w h
    simp only [runResolve] at h
    injection h with h'
    cases h'
  | succ n ih =>
    intro task st w h
    cases task with
    | node v =>
      simp only [runResolve] at h
      split at h
      · cases h
      · split at h
        · injection h with h'
          cases h'
        · split at h
          · rename_i hvnone
            injection h with h'
            injection h' with h''
            subst h''
            exact ⟨hvnone, Reaches.refl _⟩
          · rename_i r hr
            split at h
            · cases h
            · rename_i e hsub
              injection h with h'
              subst h'
              obtain ⟨hnone, hrest⟩ := ih _ _ _ hsub
              refine ⟨hnone, ?_⟩
              exact hrest (fun req hreq => ⟨r, req, hr, hreq, rfl⟩)
    | reqsOf v reqs =>
      cases reqs with
      | nil =>
        simp only [runResolve] at h
        cases h
      | cons req rest =>
        simp only [runResolve] at h
        split at h
        · rename_i st2 hsub
          obtain ⟨hnone, hrest⟩ := ih _ _ _ h
          refine ⟨hnone, fun hpre => ?_⟩
          exact hrest (fun q hq => hpre q (List.mem_cons_of_mem req hq))
        · rename_i e hsub
          injection h with h'
          subst h'
          obtain ⟨hnone, hrest⟩ := ih _ _ _ hsub
          refine ⟨hnone, fun hpre => ?_⟩
          have hreq : Requires idx v req.dep := hpre req (List.mem_cons_self req rest)
          exact Reaches.step hreq (hrest)

theorem takeWhile_ne_append {p : List Identity} {v : Identity} (hv : v ∉ p) :
    ∀ q, (p ++ v :: q).takeWhile (fun a => decide (a ≠ v)) = p := by
  induction p with
  | nil =>
    intro q
    simp [List.takeWhile_cons]
  | cons a t ih =>
    intro q
    have hav : a ≠ v := fun hc => hv (hc ▸ List.mem_cons_self a t)
    have hvt : v ∉ t := fun hc => hv (List.mem_cons_of_mem a hc)
    show List.takeWhile (fun x => decide (x ≠ v)) (a :: (t ++ v :: q)) = a :: t
    rw [List.takeWhile_cons_of_pos (by simp [hav]), ih hvt q]

theorem head?_append_cons (p : List Identity) (v : Identity) (q : List Identity) :
    (p ++ v :: q).head? = (p ++ [v]).head? := by
  cases p with
  | nil => rfl
  | cons a t => rfl

theorem visChain_take_to {idx : Identity → Option RecipeDefinition} :
    ∀ (p : List Identity) (v : Identity) (q : List Identity),
      VisChain idx (p ++ v :: q) → VisChain idx (p ++ [v]) := by
  intro p
  induction p with
  | nil =>
    intro v q _
    show VisChain idx [v]
    trivial
  | cons a p' ih =>
    intro v q h
    cases p' with
    | nil => exact ⟨h.1, trivial⟩
    | cons b p'' => exact ⟨h.1, ih v q h.2⟩

theorem visChain_last_reaches {idx : Identity → Option RecipeDefinition} :
    ∀ (l : List Identity) (v : Identity), VisChain idx (l ++ [v]) →
      ∀ a ∈ l ++ [v], Reaches idx v a := by
  intro l
  induction l with
  | nil =>
    intro v _ a ha
    simp at ha
    subst ha
    exact Reaches.refl _
  | cons x l' ih =>
    intro v h a ha
    cases l' with
    | nil =>
      rcases List.mem_cons.mp ha with rfl | ha'
      · exact Reaches.single h.1
      · simp at ha'
        subst ha'
        exact Reaches.refl _
    | cons y l'' =>
      rcases List.mem_cons.mp ha with rfl | ha'
      · have hy : Reaches idx v y := ih v h.2 y (by simp)
        exact hy.trans (Reaches.single h.1)
      · exact ih v h.2 a ha'

theorem visChain_reaches_head {idx : Identity → Option RecipeDefinition} :
    ∀ (l : List Identity), VisChain idx l → ∀ a ∈ l, ∀ h0, l.head? = some h0 →
      Reaches idx a h0 := by
  intro l
  induction l with
  | nil =>
    intro _ a ha
    cases ha
  | cons x l' ih =>
    intro h a ha h0 hh0
    have hx : h0 = x := by
      simp at hh0
      exact hh0.symm
    subst hx
    rcases List.mem_cons.mp ha with rfl | ha'
    · exact Reaches.refl _
    · cases l' with
      | nil => cases ha'
      | cons y l'' =>
        have h1 : Reaches idx a y := ih h.2 a ha' y rfl
        exact h1.trans (Reaches.single h.1)

theorem visChain_next {idx : Identity → Option RecipeDefinition} :
    ∀ (l : List Identity), VisChain idx l → ∀ a ∈ l,
      l.head? = some a ∨ ∃ b ∈ l, Requires idx a b := by
  intro l
  induction l with
  | nil =>
    intro _ a ha
    cases ha
  | cons x l' ih =>
    intro h a ha
    rcases List.mem_cons.mp ha with rfl | ha'
    · exact Or.inl rfl
    · cases l' with
      | nil => cases ha'
      | cons y l'' =>
        rcases ih h.2 a ha' with hh | ⟨b, hb, hrb⟩
        · have hay : a = y := by
            simp at hh
            exact hh.symm
          subst hay
          exact Or.inr ⟨x, List.mem_cons_self x _, h.1⟩
        · exact Or.inr ⟨b, List.mem_cons_of_mem x hb, hrb⟩

theorem onCycle_of_chain (idx : Identity → Option RecipeDefinition)
    (p : List Identity) (v : Identity)
    (hchain : VisChain idx (p ++ [v]))
    (hhead : ∀ h0, (p ++ [v]).head? = some h0 → Requires idx h0 v) :
    ∀ a ∈ p ++ [v], ∃ b, Requires idx a b ∧ Reaches idx b a := by
  intro a ha
  obtain ⟨h0, hh0⟩ : ∃ h0, (p ++ [v]).head? = some h0 := by
    cases p with
    | nil => exact ⟨v, rfl⟩
    | cons x t => exact ⟨x, rfl⟩
  have hreach_v : ∀ x ∈ p ++ [v], Reaches idx v x := visChain_last_reaches p v hchain
  rcases visChain_next (p ++ [v]) hchain a ha with hh | ⟨b, hb, hrab⟩
  · exact ⟨v, hhead a hh, hreach_v a ha⟩
  · have h1 : Reaches idx b h0 := visChain_reaches_head (p ++ [v]) hchain b hb h0 hh0
    have h2 : Requires idx h0 v := hhead h0 hh0
    have h3 : Reaches idx v a := hreach_v a ha
    exact ⟨b, hrab, h1.trans ((Reaches.single h2).trans h3)⟩

theorem runResolve_cyclic (idx : Identity → Option RecipeDefinition) :
    ∀ fuel task st c, runResolve idx fuel task st = .error (.cyclicRequirement c) →
      TaskPre idx task st → RInv idx st →
      c ≠ [] ∧ ∀ a ∈ c, ∃ b, Requires idx a b ∧ Reaches idx b a := by
  intro fuel
  induction fuel with
  | zero =>
    intro task st c h _ _
    simp only [runResolve] at h
    injection h with h'
    cases h'
  | succ n ih =>
    intro task st c h hpre hinv
    cases task with
    | node v =>
      simp only [runResolve] at h
      split at h
      · cases h
      · rename_i hvo
        split at h
        · rename_i hvv
          injection h with h'
          injection h' with h''
          obtain ⟨p, q, hpq⟩ := List.append_of_mem hvv
          have hnd := hinv.nodupV
          rw [hpq] at hnd
          obtain ⟨-, hnd2, hdisj⟩ := List.nodup_append.mp hnd
          have hvp : v ∉ p := fun hc => hdisj hc (List.mem_cons_self v q)
          have htw : st.visiting.takeWhile (fun a => decide (a ≠ v)) = p := by
            rw [hpq]
            exact takeWhile_ne_append hvp q
          have hcc : c = p ++ [v] := by
            rw [← h'', htw]
          subst hcc
          have hchain : VisChain idx (p ++ [v]) := by
            have hch := hinv.chainV
            rw [hpq] at hch
            exact visChain_take_to p v q hch
          have hhead : ∀ h0, (p ++ [v]).head? = some h0 → Requires idx h0 v := by
            intro h0 hh0
            apply hpre
            rw [hpq, head?_append_cons]
            exact hh0
          exact ⟨by simp, onCycle_of_chain idx p v hchain hhead⟩
        · rename_i hvv
          split at h
          · injection h with h'
            cases h'
          · rename_i r hr
            split at h
            · cases h
            · rename_i e hsub
              injection h with h'
              subst h'
              have hpre1 : TaskPre idx (.reqsOf v r.requirements) (pushNode v r st) :=
                ⟨by simp [pushNode], r, hr, fun req hreq => hreq⟩
              exact ih _ _ _ hsub hpre1 (rinv_push hinv hvo hvv hpre)
    | reqsOf v reqs =>
      cases reqs with
      | nil =>
        simp only [runResolve] at h
        cases h
      | cons req rest =>
        simp only [runResolve] at h
        obtain ⟨hhead, r, hr, hsub⟩ := hpre
        have hinv1 : RInv idx (addEdgeOverrides v req st) :=
          rinv_addEdge hinv hhead hr (hsub req (List.mem_cons_self req rest))
        have hpre1 : TaskPre idx (.node req.dep) (addEdgeOverrides v req st) := by
          intro h' hh'
          have hv' : h' = v := by
            have heq : (addEdgeOverrides v req st).visiting = st.visiting := rfl
            rw [heq, hhead] at hh'
            exact (Option.some.inj hh').symm
          subst hv'
          exact ⟨r, req, hr, hsub req (List.mem_cons_self req rest), rfl⟩
        split at h
        · rename_i st2 hsub1
          obtain ⟨hinv2, -⟩ := runResolve_invariant idx n _ _ st2 hsub1 hpre1 hinv1
          have hext := runResolve_extends idx n _ _ _ hsub1
          have hpre2 : TaskPre idx (.reqsOf v rest) st2 :=
            ⟨by rw [hext.1]; exact hhead, r, hr,
             fun q hq => hsub q (List.mem_cons_of_mem req hq)⟩
          exact ih _ _ _ h hpre2 hinv2
        · rename_i e hsub1
          injection h with h'
          subst h'
          exact ih _ _ _ hsub1 hpre1 hinv1

/-- Identities of all recipes available through the registry or the index. -/
def domainIds (reg : LocalRecipeRegistry) (ext : List RecipeDefinition) : List Identity :=
  (reg.entries ++ ext).map RecipeDefinition.identity

/-- Number of available identities not currently on the visiting stack. -/
def availCount (reg : LocalRecipeRegistry) (ext : List RecipeDefinition)
    (vis : List Identity) : Nat :=
  ((domainIds reg ext).filter (fun x => decide (x ∉ vis))).length

theorem filter_length_mono {α : Type} (p q : α → Bool)
    (himp : ∀ x, q x = true → p x = true) :
    ∀ l : List α, (l.filter q).length ≤ (l.filter p).length := by
  intro l
  induction l with
  | nil => exact Nat.le_refl 0
  | cons a t ih =>
    by_cases hq : q a = true
    · simp only [List.filter_cons, hq, himp a hq]
      simpa using ih
    · have hq' : q a = false := by
        rw [← Bool.not_eq_true]
        exact hq
      by_cases hp : p a = true
      · simp only [List.filter_cons, hq', hp]
        simp only [if_false, if_true, List.length_cons]
        exact Nat.le_trans ih (Nat.le_succ _)
      · have hp' : p a = false := by
          rw [← Bool.not_eq_true]
          exact hp
        simp only [List.filter_cons, hq', hp']
        simpa using ih

theorem filter_length_lt {α : Type} (p q : α → Bool)
    (himp : ∀ x, q x = true → p x = true) :
    ∀ (l : List α) (v : α), v ∈ l → p v = true → q v = false →
      (l.filter q).length < (l.filter p).length := by
  intro l
  induction l with
  | nil =>
    intro v hv
    cases hv
  | cons a t ih =>
    intro v hv hpv hqv
    rcases List.mem_cons.mp hv with rfl | hv'
    · simp only [List.filter_cons, hpv, hqv]
      simp only [if_false, if_true, List.length_cons]
      exact Nat.lt_succ_of_le (filter_length_mono p q himp t)
    · by_cases hq : q a = true
      · simp only [List.filter_cons, hq, himp a hq]
        simp only [if_true, List.length_cons]
        exact Nat.succ_lt_succ (ih v hv' hpv hqv)
      · have hq' : q a = false := by
          rw [← Bool.not_eq_true]
          exact hq
        by_cases hp : p a = true
        · simp only [List.filter_cons, hq', hp]
          simp only [if_false, if_true, List.length_cons]
          exact Nat.lt_trans (ih v hv' hpv hqv) (Nat.lt_succ_self _)
        · have hp' : p a = false := by
            rw [← Bool.not_eq_true]
            exact hp
          simp only [List.filter_cons, hq', hp']
          simpa using ih v hv' hpv hqv

theorem lookup_mem (reg : LocalRecipeRegistry) (ext : List RecipeDefinition)
    {v : Identity} {r : RecipeDefinition} (h : lookupRecipe reg ext v = some r) :
    r ∈ reg.entries ++ ext ∧ r.identity = v := by
  unfold lookupRecipe at h
  split at h
  · rename_i r0 hf
    injection h with h'
    subst h'
    have hm := List.mem_of_find?_eq_some hf
    have hp := List.find?_some hf
    simp at hp
    exact ⟨List.mem_append_left ext hm, hp⟩
  · have hm := List.mem_of_find?_eq_some h
    have hp := List.find?_some h
    simp at hp
    exact ⟨List.mem_append_right _ hm, hp⟩

theorem lookup_mem_domain (reg : LocalRecipeRegistry) (ext : List RecipeDefinition)
    {v : Identity} {r : RecipeDefinition} (h : lookupRecipe reg ext v = some r) :
    v ∈ domainIds reg ext := by
  obtain ⟨hm, hid⟩ := lookup_mem reg ext h
  unfold domainIds
  rw [← hid]
  exact List.mem_map_of_mem _ hm

theorem foldr_max_le {l : List RecipeDefinition} {r : RecipeDefinition} (h : r ∈ l) :
    r.requirements.length ≤ l.foldr (fun r m => max r.requirements.length m) 0 := by
  induction l with
  | nil => cases h
  | cons a t ih =>
    rcases List.mem_cons.mp h with rfl | h'
    · exact Nat.le_max_left _ _
    · exact Nat.le_trans (ih h') (Nat.le_max_right _ _)

theorem reqLen_le (reg : LocalRecipeRegistry) (ext : List RecipeDefinition)
    {v : Identity} {r : RecipeDefinition} (h : lookupRecipe reg ext v = some r) :
    r.requirements.length ≤ maxReqLen reg ext := by
  obtain ⟨hm, -⟩ := lookup_mem reg ext h
  exact foldr_max_le hm

theorem avail_le (reg : LocalRecipeRegistry) (ext : List RecipeDefinition)
    (vis : List Identity) :
    availCount reg ext vis ≤ reg.entries.length + ext.length := by
  unfold availCount
  have h1 := List.length_filter_le (fun x => decide (x ∉ vis)) (domainIds reg ext)
  have h2 : (domainIds reg ext).length = reg.entries.length + ext.length := by
    unfold domainIds
    rw [List.length_map, List.length_append]
  exact h2 ▸ h1

theorem avail_push (reg : LocalRecipeRegistry) (ext : List RecipeDefinition)
    {v : Identity} {vis : List Identity} (hv : v ∈ domainIds reg ext) (hnv : v ∉ vis) :
    availCount reg ext (v :: vis) < availCount reg ext vis := by
  unfold availCount
  refine filter_length_lt (fun x => decide (x ∉ vis)) (fun x => decide (x ∉ v :: vis))
    ?_ (domainIds reg ext) v hv ?_ ?_
  · intro x hx
    simp only [decide_eq_true_eq] at hx ⊢
    exact fun hc => hx (List.mem_cons_of_mem v hc)
  · exact decide_eq_true hnv
  · simp

theorem runResolve_no_fuel (reg : LocalRecipeRegistry) (ext : List RecipeDefinition) :
    ∀ fuel task st,
      (match task with
       | RTask.node _ =>
           availCount reg ext st.visiting * (maxReqLen reg ext + 2) + 1 ≤ fuel
       | RTask.reqsOf _ reqs => reqs.length ≤ maxReqLen reg ext ∧
           availCount reg ext st.visiting * (maxReqLen reg ext + 2) + reqs.length + 1 ≤ fuel) →
      runResolve (lookupRecipe reg ext) fuel task st ≠ .error .outOfFuel := by
  intro fuel
  induction fuel with
  | zero =>
    intro task st hb
    cases task with
    | node v => exact absurd hb (by omega)
    | reqsOf v reqs => exact absurd hb.2 (by omega)
  | succ f ih =>
    intro task st hb
    cases task with
    | node v =>
      simp only [runResolve]
      split
      · simp
      · split
        · simp
        · rename_i hvo hvv
          split
          · simp
          · rename_i r hr
            have hvd : v ∈ domainIds reg ext := lookup_mem_domain reg ext hr
            have hlt := avail_push reg ext hvd hvv
            have hreq := reqLen_le reg ext hr
            have hbound : r.requirements.length ≤ maxReqLen reg ext ∧
                availCount reg ext (pushNode v r st).visiting * (maxReqLen reg ext + 2) +
                  r.requirements.length + 1 ≤ f := by
              refine ⟨hreq, ?_⟩
              show availCount reg ext (v :: st.visiting) * (maxReqLen reg ext + 2) +
                r.requirements.length + 1 ≤ f
              have hsle : availCount reg ext (v :: st.visiting) + 1 ≤
                  availCount reg ext st.visiting := hlt
              have h2 : (availCount reg ext (v :: st.visiting) + 1) *
                  (maxReqLen reg ext + 2) ≤
                  availCount reg ext st.visiting * (maxReqLen reg ext + 2) :=
                Nat.mul_le_mul_right _ hsle
              rw [Nat.succ_mul] at h2
              have hb' : availCount reg ext st.visiting * (maxReqLen reg ext + 2) + 1 ≤
                  f + 1 := hb
              omega
            have hsub_ne := ih (.reqsOf v r.requirements) (pushNode v r st) hbound
            cases hs : runResolve (lookupRecipe reg ext) f
                (.reqsOf v r.requirements) (pushNode v r st) with
            | ok st2 => simp [hs]
            | error e =>
              simp only [hs]
              intro hc
              injection hc with h'
              subst h'
              exact hsub_ne hs
    | reqsOf v reqs =>
      cases reqs with
      | nil => simp [runResolve]
      | cons req rest =>
        simp only [runResolve]
        obtain ⟨hlen, hb2⟩ := hb
        have hbound1 : availCount reg ext (addEdgeOverrides v req st).visiting *
            (maxReqLen reg ext + 2) + 1 ≤ f := by
          show availCount reg ext st.visiting * (maxReqLen reg ext + 2) + 1 ≤ f
          have : (req :: rest).length = rest.length + 1 := rfl
          omega
        have hsub1_ne := ih (.node req.dep) (addEdgeOverrides v req st) hbound1
        cases hs1 : runResolve (lookupRecipe reg ext) f (.node req.dep)
            (addEdgeOverrides v req st) with
        | error e =>
          simp only [hs1]
          intro hc
          injection hc with h'
          subst h'
          exact hsub1_ne hs1
        | ok st2 =>
          simp only [hs1]
          have hvis2 : st2.visiting = (addEdgeOverrides v req st).visiting :=
            (runResolve_extends _ f _ _ _ hs1).1
          apply ih (.reqsOf v rest) st2
          refine ⟨?_, ?_⟩
          · have : (req :: rest).length = rest.length + 1 := rfl
            omega
          · rw [show st2.visiting = st.visiting from hvis2]
            have : (req :: rest).length = rest.length + 1 := rfl
            omega

theorem resolveRoots_error (idx : Identity → Option RecipeDefinition) (fuel : Nat) :
    ∀ roots st e, resolveRoots idx fuel roots st = .error e → st.visiting = [] →
      RInv idx st →
      ∃ st0 rt, rt ∈ roots ∧ st0.visiting = [] ∧ RInv idx st0 ∧
        runResolve idx fuel (.node rt) st0 = .error e := by
  intro roots
  induction roots with
  | nil =>
    intro st e h
    simp [resolveRoots] at h
  | cons root rest ih =>
    intro st e h hvis hinv
    simp only [resolveRoots] at h
    split at h
    · rename_i st1 hst1
      have hpre : TaskPre idx (.node root) st := fun a ha => by
        rw [hvis] at ha
        simp at ha
      obtain ⟨hinv1, -⟩ := runResolve_invariant idx fuel _ _ _ hst1 hpre hinv
      have hvis1 : st1.visiting = [] := by
        rw [(runResolve_extends idx fuel _ _ _ hst1).1, hvis]
      obtain ⟨st0, rt, hrt, h1, h2, h3⟩ := ih st1 e h hvis1 hinv1
      exact ⟨st0, rt, List.mem_cons_of_mem root hrt, h1, h2, h3⟩
    · rename_i e' hst1
      injection h with h'
      subst h'
      exact ⟨st, root, List.mem_cons_self root rest, hvis, hinv, hst1⟩

theorem reaches_in_order {idx : Identity → Option RecipeDefinition} {g : ResolveState}
    (hinv : RInv idx g) :
    ∀ u w, Reaches idx u w → u ∈ g.order →
      w ∈ g.order ∧ (w = u ∨ [w, u].Sublist g.order) := by
  intro u w h
  induction h with
  | refl =>
    intro hu
    exact ⟨hu, Or.inl rfl⟩
  | step hreq hrest ih =>
    intro hu
    obtain ⟨r, req, hr, hmem, hdep⟩ := hreq
    obtain ⟨hdepO, hedge, -⟩ := hinv.closedReq _ hu r hr req hmem
    have hsubm : [req.dep, _].Sublist g.order := hinv.edgeTopo _ hedge hu
    rw [hdep] at hdepO hsubm
    obtain ⟨hxO, hcase⟩ := ih hdepO
    refine ⟨hxO, Or.inr ?_⟩
    rcases hcase with rfl | hxw
    · exact hsubm
    · exact pairSub_trans hinv.nodupO hxw hsubm

/-- Modelled from the spec: the engine pipeline of sections 2 and 7 —
resolution, option propagation, then lifecycle execution; a resolution-phase
error aborts before any build work is performed. -/
def runPipeline (roots : List Identity) (reg : LocalRecipeRegistry)
    (ext : List RecipeDefinition) (userOpts : List (String × String × OptionValue))
    (outcome : Identity → Stage → Bool) :
    Except EngineError (ResolveState × List ResolvedNode × ExecState) :=
  match resolveGraph roots reg ext userOpts with
  | .error e => .error (.resolveErr e)
  | .ok g =>
    match propagate g with
    | .error e => .error (.propErr e)
    | .ok ns => .ok (g, ns, execute outcome g)

/-- Claim C4: a requirement set containing a cycle reachable from the roots
(with all reachable recipes available) makes the resolver detect the cycle via
the active DFS visiting stack and fail with a cyclic-requirement error whose
named identities all lie on an actual requirement cycle, and the pipeline
aborts with that resolution error before any build work. -/
theorem cycle_detection_fatal (roots : List Identity) (reg : LocalRecipeRegistry)
    (ext : List RecipeDefinition) (userOpts : List (String × String × OptionValue))
    (outcome : Identity → Stage → Bool)
    (hpresent : ∀ w, (∃ rt ∈ roots, Reaches (lookupRecipe reg ext) rt w) →
      ∃ r, lookupRecipe reg ext w = some r)
    (hcycle : ∃ rt ∈ roots, ∃ u, Reaches (lookupRecipe reg ext) rt u ∧
      ∃ b, Requires (lookupRecipe reg ext) u b ∧ Reaches (lookupRecipe reg ext) b u) :
    ∃ c, resolveGraph roots reg ext userOpts = .error (.cyclicRequirement c) ∧
      c ≠ [] ∧
      (∀ a ∈ c, ∃ b, Requires (lookupRecipe reg ext) a b ∧
        Reaches (lookupRecipe reg ext) b a) ∧
      runPipeline roots reg ext userOpts outcome =
        .error (.resolveErr (.cyclicRequirement c)) := by
  cases hres : resolveGraph roots reg ext userOpts with
  | ok g =>
    exfalso
    obtain ⟨hinv, hvis, hroots⟩ := resolveGraph_inv hres
    obtain ⟨rt, hrt, u, hru, b, hub, hbu⟩ := hcycle
    have hrtO : rt ∈ g.order := hroots rt hrt
    obtain ⟨huO, -⟩ := reaches_in_order hinv rt u hru hrtO
    obtain ⟨r, req, hr, hmem, hdep⟩ := hub
    obtain ⟨hbO, hedge, -⟩ := hinv.closedReq u huO r hr req hmem
    have hsub1 : [req.dep, u].Sublist g.order := hinv.edgeTopo _ hedge huO
    rw [hdep] at hbO hsub1
    obtain ⟨-, hcase⟩ := reaches_in_order hinv b u hbu hbO
    rcases hcase with rfl | hsub2
    · have := hsub1.nodup hinv.nodupO
      simp at this
    · exact pairSub_asymm hinv.nodupO hsub1 hsub2
  | error e =>
    cases e with
    | cyclicRequirement c =>
      obtain ⟨st0, rt, hrt, hv0, hi0, hrun⟩ :=
        resolveRoots_error (lookupRecipe reg ext) (fuelFor reg ext) roots _ _ hres rfl
          (rinv_init (lookupRecipe reg ext) _)
      have hpre0 : TaskPre (lookupRecipe reg ext) (.node rt) st0 := fun a ha => by
        rw [hv0] at ha
        simp at ha
      obtain ⟨hne, hon⟩ := runResolve_cyclic (lookupRecipe reg ext) (fuelFor reg ext)
        _ _ _ hrun hpre0 hi0
      refine ⟨c, rfl, hne, hon, ?_⟩
      unfold runPipeline
      rw [hres]
    | missingRecipe w =>
      exfalso
      obtain ⟨st0, rt, hrt, hv0, hi0, hrun⟩ :=
        resolveRoots_error (lookupRecipe reg ext) (fuelFor reg ext) roots _ _ hres rfl
          (rinv_init (lookupRecipe reg ext) _)
      obtain ⟨hnone, hreach⟩ :=
        runResolve_missing (lookupRecipe reg ext) (fuelFor reg ext) _ _ _ hrun
      obtain ⟨r, hsome⟩ := hpresent w ⟨rt, hrt, hreach⟩
      rw [hnone] at hsome
      cases hsome
    | duplicateRecipe d =>
      exfalso
      obtain ⟨st0, rt, hrt, hv0, hi0, hrun⟩ :=
        resolveRoots_error (lookupRecipe reg ext) (fuelFor reg ext) roots _ _ hres rfl
          (rinv_init (lookupRecipe reg ext) _)
      exact runResolve_no_dup _ _ _ _ _ hrun
    | outOfFuel =>
      exfalso
      obtain ⟨st0, rt, hrt, hv0, hi0, hrun⟩ :=
        resolveRoots_error (lookupRecipe reg ext) (fuelFor reg ext) roots _ _ hres rfl
          (rinv_init (lookupRecipe reg ext) _)
      refine runResolve_no_fuel reg ext (fuelFor reg ext) (.node rt) st0 ?_ hrun
      show availCount reg ext st0.visiting * (maxReqLen reg ext + 2) + 1 ≤ fuelFor reg ext
      unfold fuelFor
      have h1 := avail_le reg ext st0.visiting
      have h2 : availCount reg ext st0.visiting * (maxReqLen reg ext + 2) ≤
          (reg.entries.length + ext.length) * (maxReqLen reg ext + 2) :=
        Nat.mul_le_mul_right _ h1
      omega

/-- A two-recipe requirement cycle used to exercise cycle detection. -/
def cyAId : Identity := mkId "cycA" "1.0"

def cyBId : Identity := mkId "cycB" "1.0"

def cyARec : RecipeDefinition := { identity := cyAId, requirements := [rt cyBId] }

def cyBRec : RecipeDefinition := { identity := cyBId, requirements := [rt cyAId] }

def cyExt : List RecipeDefinition := [cyARec, cyBRec]

def cyReg : LocalRecipeRegistry := ⟨[]⟩

theorem cy_reach_closed : ∀ u w, Reaches (lookupRecipe cyReg cyExt) u w →
    (u = cyAId ∨ u = cyBId) → (w = cyAId ∨ w = cyBId) := by
  intro u w h
  induction h with
  | refl => exact id
  | step hreq _ ih =>
    intro hu
    apply ih
    obtain ⟨r, req, hr, hmem, hdep⟩ := hreq
    rcases hu with rfl | rfl
    · have heq : lookupRecipe cyReg cyExt cyAId = some cyARec := rfl
      rw [heq] at hr
      simp at hr
      subst hr
      have hm : req = rt cyBId := List.mem_singleton.mp hmem
      subst hm
      exact Or.inr hdep.symm
    · have heq : lookupRecipe cyReg cyExt cyBId = some cyBRec := rfl
      rw [heq] at hr
      simp at hr
      subst hr
      have hm : req = rt cyAId := List.mem_singleton.mp hmem
      subst hm
      exact Or.inl hdep.symm

theorem cycle_detection_fatal_witness :
    ∃ c, resolveGraph [cyAId] cyReg cyExt [] = .error (.cyclicRequirement c) ∧
      c ≠ [] ∧
      (∀ a ∈ c, ∃ b, Requires (lookupRecipe cyReg cyExt) a b ∧
        Reaches (lookupRecipe cyReg cyExt) b a) ∧
      runPipeline [cyAId] cyReg cyExt [] (fun _ _ => true) =
        .error (.resolveErr (.cyclicRequirement c)) := by
  apply cycle_detection_fatal
  · intro w hw
    obtain ⟨root, hroot, hre⟩ := hw
    have hroot' : root = cyAId ∨ root = cyBId := by
      simp at hroot
      exact Or.inl hroot
    rcases cy_reach_closed root w hre hroot' with rfl | rfl
    · exact ⟨cyARec, rfl⟩
    · exact ⟨cyBRec, rfl⟩
  · refine ⟨cyAId, by simp, cyAId, Reaches.refl _, cyBId, ?_, ?_⟩
    · exact ⟨cyARec, rt cyBId, rfl, List.mem_singleton.mpr rfl, rfl⟩
    · exact Reaches.single ⟨cyBRec, rt cyAId, rfl, List.mem_singleton.mpr rfl, rfl⟩
